import Mathlib

/-!
Verification development for the Backend-STT-TTS-Handler repository.

The definitions below are a shallow embedding of the Python sources:
  * `src/app/routes/realtimeRoutes.py`  (the realtime WebSocket session)
  * `src/app/service/orchSerenityAi.py` (n8n forwarding / normalization)
  * `src/app/routes/ttsRoutes.py`       (`_normalize_n8n_result`)
  * `src/app/utils/text_utils.py`       (`clean_for_tts`)
  * `src/app/utils/audio_utils.py`      (`convert_to_wav`, `_sniff_mime`)

External effects (the HTTP client, the STT/TTS providers, the n8n webhook
and the ffmpeg subprocess) are modelled as oracle functions supplied as
parameters; a Python exception is modelled as `Except.error` carrying the
message used by `str(e)`.
-/

namespace SpeechBridge

/-- JSON-like Python values as they appear after `json.loads` / `resp.json()`.
`obj` keeps the key/value pairs in insertion order, matching Python dicts. -/
inductive JVal where
  | null : JVal
  | bool (b : Bool) : JVal
  | num (n : Int) : JVal
  | str (s : String) : JVal
  | arr (xs : List JVal) : JVal
  | obj (kvs : List (String × JVal)) : JVal

/-- Python `dict.get`: first binding of the key, `None` (here `none`) if absent. -/
def jGet (kvs : List (String × JVal)) (k : String) : Option JVal :=
  (kvs.find? (fun p => p.1 = k)).map (fun p => p.2)

/-- Python truthiness of a JSON value (`bool(v)`). -/
def jTruthy : JVal → Bool
  | .null => false
  | .bool b => b
  | .num n => n != 0
  | .str s => s != ""
  | .arr xs => !xs.isEmpty
  | .obj kvs => !kvs.isEmpty

/-- Truthiness of an optional value; Python `None` is falsy. -/
def optTruthy : Option JVal → Bool
  | none => false
  | some v => jTruthy v

/-- Python `a or b` on optional values: `a` when truthy, else `b`. -/
def pyOr (a b : Option JVal) : Option JVal :=
  if optTruthy a then a else b

/-- Python `v == "lit"` where `v` may be `None` or any value. -/
def isStrEq (o : Option JVal) (s : String) : Bool :=
  match o with
  | some (.str t) => t = s
  | _ => false

/-- Python `d[k] = v` on an insertion-ordered dict: overwrite in place,
else append at the end. -/
def dictSet (kvs : List (String × JVal)) (k : String) (v : JVal) :
    List (String × JVal) :=
  match kvs with
  | [] => [(k, v)]
  | (k0, v0) :: rest =>
      if k0 = k then (k0, v) :: rest else (k0, v0) :: dictSet rest k v

/-- Python `str(v)`.  Faithful for strings, booleans, `None` and integers;
`str()` of a list or dict always begins with a bracket or brace, which is all
the code below ever depends on, so those two cases are abstracted to fixed
bracketed placeholders. -/
def pyStr : JVal → String
  | .str s => s
  | .bool true => "True"
  | .bool false => "False"
  | .null => "None"
  | .num n => toString n
  | .arr _ => "[...]"
  | .obj _ => "\x7b...\x7d"

/-! ## Text sanitizer: `clean_for_tts` from `src/app/utils/text_utils.py`

Each numbered step of the Python function is one executable function on
`List Char`.  Regex substitutions are modelled by left-to-right scanners
with the same leftmost, non-overlapping semantics. -/

/-- Python regex `\s` restricted to ASCII: space, tab, newline, carriage
return, vertical tab and form feed. -/
def isPySpace (c : Char) : Bool :=
  c = ' ' || c = '\t' || c = '\n' || c = '\r' || c = '\x0B' || c = '\x0C'

/-- Python regex `\w` (ASCII reading): letters, digits and underscore. -/
def isWordChar (c : Char) : Bool :=
  c.isAlphanum || c = '_'

/-- Character class `[a-zA-Z0-9_\-]` of the `[[type:...]]` tag pattern. -/
def isIdentChar (c : Char) : Bool :=
  c.isAlphanum || c = '_' || c = '-'

/-- Terminal sentence punctuation `[.!?…]`. -/
def isTermPunct (c : Char) : Bool :=
  c = '.' || c = '!' || c = '?' || c = '…'

/-- The class `[,.!?…]` used when deleting whitespace before punctuation. -/
def isClosePunct (c : Char) : Bool :=
  c = ',' || c = '.' || c = '!' || c = '?' || c = '…'

/-- The backtick character (written via its code point). -/
def backtickChar : Char := Char.ofNat 96

theorem dropWhile_length_le {α : Type} (p : α → Bool) :
    ∀ l : List α, (l.dropWhile p).length ≤ l.length
  | [] => by simp [List.dropWhile]
  | a :: l => by
    rw [List.dropWhile_cons]
    split
    · exact le_trans (dropWhile_length_le p l) (by simp)
    · simp

/-- Python `str.replace` for a non-empty pattern `p :: ps`, replacement
`rep`: leftmost, non-overlapping, single pass. -/
def pyReplace (p : Char) (ps rep : List Char) : List Char → List Char
  | [] => []
  | c :: rest =>
    if c = p && ps.isPrefixOf rest then
      rep ++ pyReplace p ps rep (rest.drop ps.length)
    else
      c :: pyReplace p ps rep rest
termination_by s => s.length
decreasing_by
  · have h := List.length_drop ps.length rest
    simp only [List.length_cons]
    omega
  · simp

/-- Tail of a `[[type:ident]]` tag match after the literal `[[type:` part:
a non-empty run of identifier characters followed by `]]`.  Returns the
input remainder after the tag. -/
def matchTagTail (rest : List Char) : Option (List Char) :=
  if (rest.takeWhile isIdentChar).isEmpty then none
  else
    match rest.dropWhile isIdentChar with
    | ']' :: ']' :: r3 => some r3
    | _ => none

/-- Attempt to match the regex `\[\[type:([a-zA-Z0-9_\-]+)\]\]` at the head
of the input; on success, return the remainder after the match. -/
def matchTag (s : List Char) : Option (List Char) :=
  match s with
  | '[' :: '[' :: 't' :: 'y' :: 'p' :: 'e' :: ':' :: rest => matchTagTail rest
  | _ => none

theorem matchTagTail_length {rest r : List Char}
    (h : matchTagTail rest = some r) : r.length < rest.length := by
  unfold matchTagTail at h
  split at h
  · exact absurd h (by simp)
  · split at h
    case _ r3 heq =>
      have hle : (rest.dropWhile isIdentChar).length ≤ rest.length :=
        dropWhile_length_le _ _
      rw [heq] at hle
      simp only [List.length_cons] at hle
      cases h
      omega
    case _ => exact absurd h (by simp)

theorem matchTag_length {s r : List Char}
    (h : matchTag s = some r) : r.length < s.length := by
  unfold matchTag at h
  split at h
  · have := matchTagTail_length h
    simp only [List.length_cons]
    omega
  · exact absurd h (by simp)

/-- Step 1: `_TYPE_TAG_RE.sub("", s)` — delete every `[[type:ident]]` tag. -/
def removeTags : List Char → List Char
  | [] => []
  | c :: rest =>
    match h : matchTag (c :: rest) with
    | some r3 => removeTags r3
    | none => c :: removeTags rest
termination_by s => s.length
decreasing_by
  · have := matchTag_length h
    omega
  · simp

/-- Second half of a markdown-link match: the `(url)` part after `](`. -/
def matchLinkUrl (label r2 : List Char) : Option (List Char × List Char) :=
  if (r2.takeWhile (fun c => c ≠ ')')).isEmpty then none
  else
    match r2.dropWhile (fun c => c ≠ ')') with
    | ')' :: r3 => some (label, r3)
    | _ => none

/-- Attempt to match the markdown-link regex `\[([^\]]+)\]\(([^)]+)\)` at
the head of the input; on success, return the label and the remainder. -/
def matchLink (s : List Char) : Option (List Char × List Char) :=
  match s with
  | '[' :: rest =>
    if (rest.takeWhile (fun c => c ≠ ']')).isEmpty then none
    else
      match rest.dropWhile (fun c => c ≠ ']') with
      | ']' :: '(' :: r2 => matchLinkUrl (rest.takeWhile (fun c => c ≠ ']')) r2
      | _ => none
  | _ => none

theorem matchLinkUrl_length {label r2 lab r : List Char}
    (h : matchLinkUrl label r2 = some (lab, r)) : r.length < r2.length := by
  unfold matchLinkUrl at h
  split at h
  · exact absurd h (by simp)
  · split at h
    case _ r3 heq =>
      have hle : (r2.dropWhile (fun c => c ≠ ')')).length ≤ r2.length :=
        dropWhile_length_le _ _
      rw [heq] at hle
      simp only [List.length_cons] at hle
      cases h
      omega
    case _ => exact absurd h (by simp)

theorem matchLink_length {s : List Char} {label r : List Char}
    (h : matchLink s = some (label, r)) : r.length < s.length := by
  unfold matchLink at h
  split at h
  case _ rest =>
    split at h
    · exact absurd h (by simp)
    · split at h
      case _ r2 heq =>
        have h1 : (rest.dropWhile (fun c => c ≠ ']')).length ≤ rest.length :=
          dropWhile_length_le _ _
        rw [heq] at h1
        simp only [List.length_cons] at h1
        have h2 := matchLinkUrl_length h
        simp only [List.length_cons]
        omega
      case _ => exact absurd h (by simp)
  case _ => exact absurd h (by simp)

/-- Step 3: `re.sub(r"\[([^\]]+)\]\(([^)]+)\)", r"\1", s)` — replace each
markdown link by its label. -/
def stripLinks : List Char → List Char
  | [] => []
  | c :: rest =>
    match h : matchLink (c :: rest) with
    | some (label, r3) => label ++ stripLinks r3
    | none => c :: stripLinks rest
termination_by s => s.length
decreasing_by
  · have := matchLink_length h
    omega
  · simp

/-- The lookaround conjunction of step 4: a word character directly
before (`prev`, the original previous character) and directly after
(head of `rest`). -/
def flankCond (prev : Option Char) (rest : List Char) : Bool :=
  (match prev with | some p => isWordChar p | none => false) &&
  (match rest with | c2 :: _ => isWordChar c2 | [] => false)

/-- Step 4 (second half of step 5 in the source): delete every `*` or `_`
that is not flanked by word characters on both sides; the lookarounds of
`(?<!\w)[*_](?!\w)|(?<=\w)[*_](?!\w)|(?<!\w)[*_](?=\w)` inspect the
original neighbours, so `prev` always tracks the original previous char. -/
def removeEmph (prev : Option Char) : List Char → List Char
  | [] => []
  | c :: rest =>
    if c = '*' || c = '_' then
      if flankCond prev rest then c :: removeEmph (some c) rest
      else removeEmph (some c) rest
    else
      c :: removeEmph (some c) rest

/-- Step 5: `re.sub(r"^\s*#+\s*", "", s, flags=re.MULTILINE)`.  `atStart`
records whether the scan position starts the string or follows a newline;
a match consumes optional whitespace (which may span newlines), the run of
`#` and trailing whitespace. -/
def headingStrip : Bool → List Char → List Char
  | _, [] => []
  | atStart, c :: rest =>
    if atStart then
      match h : (c :: rest).dropWhile isPySpace with
      | '#' :: r1 =>
        let r2 := r1.dropWhile (fun x => x = '#')
        let ws2 := r2.takeWhile isPySpace
        let r3 := r2.dropWhile isPySpace
        headingStrip (ws2.getLast? = some '\n') r3
      | _ => c :: headingStrip (c = '\n') rest
    else
      c :: headingStrip (c = '\n') rest
termination_by _ s => s.length
decreasing_by
  · have h0 : ((c :: rest).dropWhile isPySpace).length ≤ (c :: rest).length :=
      dropWhile_length_le _ _
    rw [h] at h0
    have h1 : (r1.dropWhile (fun x => x = '#')).length ≤ r1.length :=
      dropWhile_length_le _ _
    have h2 : ((r1.dropWhile (fun x => x = '#')).dropWhile isPySpace).length ≤
        (r1.dropWhile (fun x => x = '#')).length :=
      dropWhile_length_le _ _
    simp only [List.length_cons] at h0 ⊢
    omega
  · simp
  · simp

/-- `str.split("\n")`: split at every newline, keeping empty pieces. -/
def splitNL : List Char → List (List Char)
  | [] => [[]]
  | c :: rest =>
    if c = '\n' then [] :: splitNL rest
    else
      match splitNL rest with
      | [] => [[c]]
      | l :: ls => (c :: l) :: ls

/-- Python `str.strip()` over the ASCII whitespace class. -/
def pyStrip (s : List Char) : List Char :=
  ((s.dropWhile isPySpace).reverse.dropWhile isPySpace).reverse

/-- Step 6 per line: append a period unless the line already ends in
terminal punctuation (`re.search(r"[.!?…]$", ln)`). -/
def endPunct (ln : List Char) : List Char :=
  match ln.getLast? with
  | some c => if isTermPunct c then ln else ln ++ ['.']
  | none => ln ++ ['.']

/-- `" ".join(processed)`. -/
def joinSpace : List (List Char) → List Char
  | [] => []
  | [l] => l
  | l :: ls => l ++ ' ' :: joinSpace ls

/-- Step 7 and step 8b: `re.sub(r"\s+(cls)", r"\1", s)` — delete every
whitespace run that immediately precedes a character of `cls`.  `pend`
holds the pending whitespace run. -/
def stripWsBefore (cls : Char → Bool) (pend : List Char) : List Char → List Char
  | [] => pend
  | c :: rest =>
    if isPySpace c then stripWsBefore cls (pend ++ [c]) rest
    else if cls c then c :: stripWsBefore cls [] rest
    else pend ++ (c :: stripWsBefore cls [] rest)

/-- Step 8a: `re.sub(r"\(\s+", "(", s)` — delete whitespace directly
after an opening parenthesis. -/
def fixOpenParen (inRun : Bool) : List Char → List Char
  | [] => []
  | c :: rest =>
    if c = '(' then c :: fixOpenParen true rest
    else if inRun && isPySpace c then fixOpenParen true rest
    else c :: fixOpenParen false rest

/-- Step 9a: `re.sub(r"\s{2,}", " ", s)` — collapse whitespace runs of
length at least two to a single space. -/
def collapseWS (pend : List Char) : List Char → List Char
  | [] => if pend.length ≥ 2 then [' '] else pend
  | c :: rest =>
    if isPySpace c then collapseWS (pend ++ [c]) rest
    else (if pend.length ≥ 2 then [' '] else pend) ++ (c :: collapseWS [] rest)

/-- Steps 1–5 of `clean_for_tts` in source order: tag removal, newline
normalization, link stripping, emphasis-marker removal, heading
stripping. -/
def cleanPre (s : List Char) : List Char :=
  headingStrip true (removeEmph none (pyReplace backtickChar [] []
    (pyReplace '_' ['_'] [] (pyReplace '*' ['*'] [] (stripLinks
    (pyReplace '\r' ['\n'] ['\n'] (pyReplace '\\' ['n'] ['\n']
    (removeTags s))))))))

/-- Step 6's line splitting: split on newlines, strip each line, keep
the non-empty ones. -/
def cleanLines (s : List Char) : List (List Char) :=
  ((splitNL (cleanPre s)).map pyStrip).filter (fun l => !l.isEmpty)

/-- Steps 7–8 of `clean_for_tts`: punctuation-spacing fixes and
whitespace collapsing, then the final strip. -/
def cleanTail (s10 : List Char) : List Char :=
  pyStrip (collapseWS [] (stripWsBefore (fun c => c = ')') []
    (fixOpenParen false (stripWsBefore isClosePunct [] s10))))

/-- The body of `clean_for_tts` (after the emptiness guard), step by step
in source order. -/
def cleanCore (s : List Char) : List Char :=
  cleanTail (joinSpace ((cleanLines s).map endPunct))

/-- `clean_for_tts` from `src/app/utils/text_utils.py`.  For string input
the guard `if not text: return text` fires exactly on the empty string. -/
def clean_for_tts (s : String) : String :=
  if s = "" then s else String.mk (cleanCore s.data)

/-! ## Realtime session: `chat_socket` from `src/app/routes/realtimeRoutes.py`

The WebSocket handler is embedded as a step function over the handler's
local state, driven by a list of incoming frames.  The external adapters
(`convert_to_wav`, `stt_raw_bytes_to_text`, `forward_to_n8n`,
`stream_text_to_speech`) are oracles; `Except.error m` models a raised
exception whose `str(e)` is `m`.  Only the `convert_to_wav` call is
guarded by an inner `try/except`; every other exception propagates to the
handler's outer `except`, which sends a generic error event and returns,
ending the session. -/

/-- Handler-local state of one realtime session. -/
structure SessState where
  buffer : List Nat
  session_id : Option JVal
  language : Option JVal
  input_mime : Option JVal

/-- State right after `await ws.accept()`. -/
def initState : SessState := ⟨[], none, none, none⟩

/-- Outbound events sent over the socket. -/
inductive Event where
  | ready : Event
  | error (detail : String) (message : Option String) : Event
  | debug (transcript : String) (result : JVal) : Event
  | crisis (ty : JVal) (text : JVal) (meta : JVal) : Event
  | audioStart (mediaType : String) (ty : JVal) : Event
  | audioChunk (chunk : List Nat) : Event
  | audioEnd : Event

def Event.isReady : Event → Bool
  | .ready => true
  | _ => false

/-- Result of `stream_text_to_speech`: the chunks the lazy byte stream
yields, and an optional exception the stream raises after them (the
upstream status is only checked once iteration starts, inside `_aiter`). -/
structure TtsOut where
  chunks : List (List Nat)
  streamErr : Option String
  mediaType : String

/-- The four external adapter calls made by the session. -/
structure Oracles where
  convert : List Nat → Option JVal → Except String (List Nat)
  stt : List Nat → Option JVal → Except String String
  n8n : JVal → String → Except String JVal
  tts : String → Option JVal → Except String TtsOut

/-- How many times each adapter was called while processing a frame. -/
structure Calls where
  conv : Nat
  stt : Nat
  n8n : Nat
  tts : Nat
deriving DecidableEq

def noCalls : Calls := ⟨0, 0, 0, 0⟩

def addCalls (a b : Calls) : Calls :=
  ⟨a.conv + b.conv, a.stt + b.stt, a.n8n + b.n8n, a.tts + b.tts⟩

/-- Outcome of processing one text frame: either the session continues
with new state after sending `evs`, or an uncaught exception ends it
(`evs` were already sent, then the outer handler sends a generic error). -/
inductive StepRes where
  | cont (st : SessState) (evs : List Event) : StepRes
  | died (evs : List Event) (msg : String) : StepRes

/-- Lines 91–97: the minimal in-socket normalization of the n8n result —
`response_type`. -/
def normType (result : JVal) : Option JVal :=
  match result with
  | .obj kvs => jGet kvs "type"
  | _ => none

/-- Lines 91–97: the minimal in-socket normalization — `response_text`
(`result.get("text") or result.get("output")`, or the string itself). -/
def normText (result : JVal) : Option JVal :=
  match result with
  | .obj kvs => pyOr (jGet kvs "text") (jGet kvs "output")
  | .str s => some (.str s)
  | _ => none

/-- Line 105: flagged as crisis (type `crisis` or truthy `crisis_flag`)
while `response_text` is falsy. -/
def crisisCond (result : JVal) : Bool :=
  (isStrEq (normType result) "crisis" ||
    (match result with
     | .obj kvs => optTruthy (jGet kvs "crisis_flag")
     | _ => false)) &&
  !optTruthy (normText result)

/-- Lines 107–116: `subtype`, read at top level, else under a dict `meta`. -/
def subtypeOf (result : JVal) : Option JVal :=
  match result with
  | .obj kvs =>
    match jGet kvs "meta" with
    | some (.obj m) => pyOr (jGet kvs "subtype") (jGet m "subtype")
    | _ => jGet kvs "subtype"
  | _ => none

/-- Lines 107–116: `method_intent`, truthy at top level or under a dict
`meta`. -/
def methodIntentOf (result : JVal) : Bool :=
  match result with
  | .obj kvs =>
    optTruthy (jGet kvs "method_intent") ||
    (match jGet kvs "meta" with
     | some (.obj m) => optTruthy (jGet m "method_intent")
     | _ => false)
  | _ => false

/-- Python `str.lower()` (ASCII case mapping). -/
def pyLower (s : String) : String :=
  String.mk (s.data.map Char.toLower)

/-- Line 134: `subtype and str(subtype).lower() in ("hard_block", "hard-block")`. -/
def subtypeHard (o : Option JVal) : Bool :=
  optTruthy o &&
  (match o with
   | some v => pyLower (pyStr v) = "hard_block" || pyLower (pyStr v) = "hard-block"
   | none => false)

/-- Line 134: choose the hard-block fallback message. -/
def hardCond (result : JVal) : Bool :=
  subtypeHard (subtypeOf result) || methodIntentOf result

/-- Lines 119–124: the standard empathetic fallback message (verbatim). -/
def standardMsg : String :=
  "Aku menyesal kamu sedang merasa seperti ini. Keselamatanmu sangat penting. " ++
  "Jika kamu dalam bahaya segera, mohon hubungi layanan darurat setempat. " ++
  "Kamu tidak sendirian—dukungan dari orang tepercaya atau profesional bisa membantu. " ++
  "Jika berkenan, aku bisa membagikan informasi bantuan resmi sesuai wilayahmu."

/-- Lines 127–131: the hard-block fallback message (verbatim). -/
def hardblockMsg : String :=
  "Keselamatanmu sangat penting. Jika kamu dalam bahaya segera, mohon hubungi layanan darurat setempat sekarang. " ++
  "Kami tidak dapat memberikan detail cara atau langkah. Kamu tidak sendirian—dukungan dari orang tepercaya atau profesional bisa membantu. " ++
  "Jika berkenan, aku bisa membagikan informasi bantuan resmi sesuai wilayahmu."

/-- `meta` as placed into the crisis event (lines 158–160): `None` unless
the n8n result is a dict, else `result.get("meta")`. -/
def crisisMeta (result : JVal) : JVal :=
  match result with
  | .obj kvs => (jGet kvs "meta").getD .null
  | _ => .null

/-- Lines 58–195: processing of a `stop` control frame. -/
def processStop (orc : Oracles) (st : SessState) : Calls × StepRes :=
  if st.buffer.isEmpty then
    (noCalls, .cont st [.error "empty_audio" none])
  else
    match orc.convert st.buffer st.input_mime with
    | .error m =>
      (⟨1, 0, 0, 0⟩,
       .cont { st with buffer := [] } [.error "wav_conversion_failed" (some (m.take 200))])
    | .ok wav =>
      match orc.stt wav st.language with
      | .error m => (⟨1, 1, 0, 0⟩, .died [] m)
      | .ok transcript =>
        match orc.n8n ((pyOr st.session_id (some (.str "session"))).getD .null) transcript with
        | .error m => (⟨1, 1, 1, 0⟩, .died [] m)
        | .ok result =>
          let rt := if crisisCond result then some (JVal.str "crisis") else normType result
          let rx :=
            if crisisCond result then
              some (JVal.str (if hardCond result then hardblockMsg else standardMsg))
            else normText result
          if !optTruthy rx then
            (⟨1, 1, 1, 0⟩,
             .cont { st with buffer := [] }
               [.debug transcript result, .error "no_text" none])
          else if isStrEq rt "crisis" then
            (⟨1, 1, 1, 0⟩,
             .cont { st with buffer := [] }
               [.crisis (rt.getD .null) (rx.getD .null) (crisisMeta result), .ready])
          else
            match orc.tts (clean_for_tts (pyStr (rx.getD .null))) rt with
            | .error m => (⟨1, 1, 1, 1⟩, .died [] m)
            | .ok t =>
              let startEv := Event.audioStart t.mediaType ((pyOr rt (some (.str "unknown"))).getD .null)
              match t.streamErr with
              | some m =>
                (⟨1, 1, 1, 1⟩, .died (startEv :: t.chunks.map Event.audioChunk) m)
              | none =>
                (⟨1, 1, 1, 1⟩,
                 .cont { st with buffer := [] }
                   (startEv :: t.chunks.map Event.audioChunk ++ [.audioEnd, .ready]))

/-- Lines 44–197: processing of one decoded text-frame payload. -/
def processData (orc : Oracles) (st : SessState) (data : JVal) : Calls × StepRes :=
  match data with
  | .obj kvs =>
    if isStrEq (jGet kvs "type") "start" then
      (noCalls,
       .cont
         { buffer := [],
           session_id := jGet kvs "session_id",
           language := jGet kvs "language",
           input_mime := pyOr (jGet kvs "content_type") (pyOr (jGet kvs "mime") (some (.str "audio/webm"))) }
         [.ready])
    else if isStrEq (jGet kvs "type") "stop" then
      processStop orc st
    else
      (noCalls, .cont st [.error "unknown_text_frame" none])
  | _ =>
    -- `data.get("type")` on a non-dict raises AttributeError (message abstracted)
    (noCalls, .died [] "AttributeError")

/-- The payload of a received text frame, as the handler decodes it
(lines 44–48): parsed JSON, a parse failure (`{"type": "invalid"}`), or
an empty text (`{}`). -/
inductive TextMsg where
  | payload (v : JVal) : TextMsg
  | invalid : TextMsg
  | empty : TextMsg

def decodeText : TextMsg → JVal
  | .payload v => v
  | .invalid => .obj [("type", .str "invalid")]
  | .empty => .obj []

/-- One incoming WebSocket message. -/
inductive InMsg where
  | textFrame (t : TextMsg) : InMsg
  | binary (b : List Nat) : InMsg
  | disconnect : InMsg
  | otherFrame : InMsg

/-- The receive loop from a given state: the events sent to the client
and the adapter calls made.  A died step appends the outer handler's
generic error event and stops consuming messages. -/
def runFrom (orc : Oracles) (st : SessState) : List InMsg → List Event × Calls
  | [] => ([], noCalls)
  | .disconnect :: _ => ([], noCalls)
  | .otherFrame :: rest => runFrom orc st rest
  | .binary b :: rest => runFrom orc { st with buffer := st.buffer ++ b } rest
  | .textFrame t :: rest =>
    match processData orc st (decodeText t) with
    | (c, .cont st2 evs) =>
      let r := runFrom orc st2 rest
      (evs ++ r.1, addCalls c r.2)
    | (c, .died evs m) => (evs ++ [.error m none], c)

/-- All events one session run sends for a message sequence. -/
def runSession (orc : Oracles) (msgs : List InMsg) : List Event :=
  (runFrom orc initState msgs).1

/-- All adapter calls one session run makes for a message sequence. -/
def sessionCalls (orc : Oracles) (msgs : List InMsg) : Calls :=
  (runFrom orc initState msgs).2

/-! ### Concrete frames and oracles used by witnesses and counterexamples -/

/-- A plain `{"type": "start"}` control frame. -/
def startFrame : InMsg := .textFrame (.payload (.obj [("type", .str "start")]))

/-- A `{"type": "stop"}` control frame. -/
def stopFrame : InMsg := .textFrame (.payload (.obj [("type", .str "stop")]))

/-- Adapters that all succeed, with a neutral, markdown-decorated reply. -/
def okOracle : Oracles where
  convert := fun b _ => .ok b
  stt := fun _ _ => .ok "halo"
  n8n := fun _ _ => .ok (.obj [("type", .str "neutral"), ("text", .str "Hai! **Apa kabar**")])
  tts := fun _ _ => .ok ⟨[[1, 2], [3]], none, "audio/mpeg"⟩

/-- Adapters where the STT configuration is missing: the provider wrapper
raises `HTTPException(500, "XI_API_KEY not set")`. -/
def sttFailOracle : Oracles where
  convert := fun b _ => .ok b
  stt := fun _ _ => .error "500: XI_API_KEY not set"
  n8n := fun _ _ => .ok .null
  tts := fun _ _ => .ok ⟨[], none, "audio/mpeg"⟩

/-- Adapters where the n8n reply is a crisis flag with empty text and a
`hard_block` subtype (the spec's crisis scenario, after unwrapping). -/
def crisisOracle : Oracles where
  convert := fun b _ => .ok b
  stt := fun _ _ => .ok "halo"
  n8n := fun _ _ => .ok (.obj [("type", .str "crisis"), ("text", .str ""),
    ("crisis_flag", .bool true), ("subtype", .str "hard_block")])
  tts := fun _ _ => .ok ⟨[], none, "audio/mpeg"⟩

/-- A session state holding one buffered audio byte. -/
def bufState : SessState := ⟨[7], none, none, none⟩

theorem addCalls_noCalls (c : Calls) : addCalls noCalls c = c := by
  cases c
  simp [addCalls, noCalls]

/-- The hard-block trigger as the specification words it: `subtype`
(top-level or under `meta`) equals `hard_block`/`hard-block` up to case,
or `method_intent` (top-level or under `meta`) is true. -/
def claimHardBlock (result : JVal) : Bool :=
  (match subtypeOf result with
   | some (.str s) => pyLower s = "hard_block" || pyLower s = "hard-block"
   | _ => false) || methodIntentOf result

theorem hardCond_eq_claimHardBlock (result : JVal)
    (hsub : subtypeOf result = none ∨ ∃ s, subtypeOf result = some (.str s)) :
    hardCond result = claimHardBlock result := by
  rcases hsub with h | ⟨s, h⟩
  · simp [hardCond, claimHardBlock, subtypeHard, h, optTruthy]
  · by_cases hs : s = ""
    · subst hs
      have h1 : pyLower "" = "" := rfl
      simp [hardCond, claimHardBlock, subtypeHard, h, optTruthy, jTruthy, pyStr, h1]
    · have hs2 : (s != "") = true := by simp [hs]
      simp [hardCond, claimHardBlock, subtypeHard, h, optTruthy, jTruthy, pyStr, hs2]

/-! ## Orchestration normalization

`forward_to_n8n` (post-HTTP part, `src/app/service/orchSerenityAi.py`
lines 30–78) followed by `_normalize_n8n_result`
(`src/app/routes/ttsRoutes.py` lines 13–46), as composed by the
`/tts/stt-chat-tts` routes.  `jp` is the model of `json.loads` on
embedded JSON text (`none` = parse failure). -/

/-- One entry of a `values` group: `e.get("name")` / `e.get("value")`
with `json`-typed values decoded and `boolean`-typed values coerced.
`e.get(k)` yields Python `None` both for a missing key and an explicit
null, so both skip the entry when `name` is concerned.  A non-dict entry
raises `AttributeError`.  Python dict keys may be non-strings; the model
stringifies them (nothing proved here depends on a non-string name). -/
def flattenEntry (jp : String → Option JVal) (vtype : String)
    (acc : List (String × JVal)) (e : JVal) : Except String (List (String × JVal)) :=
  match e with
  | .obj ekvs =>
    match jGet ekvs "name" with
    | none => .ok acc
    | some .null => .ok acc
    | some nm =>
      let val := jGet ekvs "value"
      let v : JVal :=
        if vtype = "json" then
          match val with
          | some (.str s) => (jp s).getD (.str s)
          | some v0 => v0
          | none => .null
        else if vtype = "boolean" then .bool (optTruthy val)
        else val.getD .null
      .ok (dictSet acc (pyStr nm) v)
  | _ => .error "AttributeError"

def flattenEntries (jp : String → Option JVal) (vtype : String)
    (acc : List (String × JVal)) : List JVal → Except String (List (String × JVal))
  | [] => .ok acc
  | e :: rest =>
    match flattenEntry jp vtype acc e with
    | .error m => .error m
    | .ok acc2 => flattenEntries jp vtype acc2 rest

/-- Lines 53–71: flatten a `values` group keyed by value-type name into a
single mapping keyed by entry name; non-list groups are skipped. -/
def valuesFlatten (jp : String → Option JVal) (acc : List (String × JVal)) :
    List (String × JVal) → Except String (List (String × JVal))
  | [] => .ok acc
  | (vtype, entries) :: rest =>
    match entries with
    | .arr lst =>
      match flattenEntries jp vtype acc lst with
      | .error m => .error m
      | .ok acc2 => valuesFlatten jp acc2 rest
    | _ => valuesFlatten jp acc rest

/-- `forward_to_n8n` lines 30–78, after a successful POST: normalize the
decoded body (`parsed`; `none` when `resp.json()` raised). -/
def forwardNormalize (jp : String → Option JVal) (rawText : String)
    (parsed : Option JVal) : Except String JVal :=
  match parsed with
  | none => .ok (.obj [("raw", .str rawText)])
  | some data =>
    match data with
    | .arr (first :: _) =>
      match first with
      | .obj kvs =>
        match jGet kvs "json" with
        | some (.obj j) => .ok (.obj j)
        | _ => .ok (.obj kvs)
      | _ => .ok (.obj [("raw", .str rawText), ("parsed", data)])
    | .obj kvs =>
      match jGet kvs "values" with
      | some (.obj vals) =>
        match valuesFlatten jp [] vals with
        | .error m => .error m
        | .ok normalized =>
          if normalized.isEmpty then .ok (.obj kvs) else .ok (.obj normalized)
      | _ => .ok (.obj kvs)
    | _ => .ok (.obj [("raw", .str rawText), ("parsed", data)])

/-- Variant of `matchTag` also returning the identifier (group 1). -/
def matchTagIdent (s : List Char) : Option (List Char × List Char) :=
  match s with
  | '[' :: '[' :: 't' :: 'y' :: 'p' :: 'e' :: ':' :: rest =>
    if (rest.takeWhile isIdentChar).isEmpty then none
    else
      match rest.dropWhile isIdentChar with
      | ']' :: ']' :: r3 => some (rest.takeWhile isIdentChar, r3)
      | _ => none
  | _ => none

/-- `re.search` for the `[[type:...]]` pattern: identifier of the
leftmost match. -/
def findTag : List Char → Option (List Char)
  | [] => none
  | c :: rest =>
    match matchTagIdent (c :: rest) with
    | some (ident, _) => some ident
    | none => findTag rest

/-- The result dict of `_normalize_n8n_result`, which always carries
exactly the keys `text`, `type`, `crisis_flag`, `meta` in that order. -/
def resultObj (text ty cf : Option JVal) (meta : JVal) : JVal :=
  .obj [("text", text.getD .null), ("type", ty.getD .null),
        ("crisis_flag", cf.getD .null), ("meta", meta)]

/-- Lines 19–21: unwrap a non-empty list to its first element. -/
def unwrapFirst (data0 : JVal) : JVal :=
  match data0 with
  | .arr (x :: _) => x
  | _ => data0

/-- Lines 22–26: unwrap a dict `json` field, else a dict `body` field. -/
def unwrapJsonBody (d : JVal) : JVal :=
  match d with
  | .obj kvs =>
    match jGet kvs "json" with
    | some (.obj j) => JVal.obj j
    | _ =>
      match jGet kvs "body" with
      | some (.obj b) => JVal.obj b
      | _ => d
  | _ => d

/-- `_normalize_n8n_result` from `src/app/routes/ttsRoutes.py` lines
13–46.  `re.search` on a truthy non-string text raises `TypeError`. -/
def normalizeN8nResult (data0 : JVal) : Except String JVal :=
  let data2 := unwrapJsonBody (unwrapFirst data0)
  let text0 := match data2 with
    | .obj kvs => pyOr (jGet kvs "text") (pyOr (jGet kvs "output") (jGet kvs "response"))
    | .str s => some (.str s)
    | _ => none
  let ty0 := match data2 with
    | .obj kvs => jGet kvs "type"
    | _ => none
  let cf0 := match data2 with
    | .obj kvs => jGet kvs "crisis_flag"
    | _ => none
  let meta0 : JVal := match data2 with
    | .obj kvs =>
      match jGet kvs "meta" with
      | some (.obj m) => JVal.obj m
      | _ => .obj []
    | _ => .obj []
  if optTruthy text0 && !optTruthy ty0 then
    match text0 with
    | some (.str s) =>
      match findTag s.data with
      | some ident =>
        .ok (resultObj (some (.str (String.mk (pyStrip (removeTags s.data)))))
          (some (.str (String.mk ident))) cf0 meta0)
      | none => .ok (resultObj text0 ty0 cf0 meta0)
    | _ => .error "TypeError"
  else .ok (resultObj text0 ty0 cf0 meta0)

/-- The orchestration path's normalization: `forward_to_n8n`'s shape
handling followed by `_normalize_n8n_result`. -/
def orchNormalize (jp : String → Option JVal) (rawText : String)
    (parsed : Option JVal) : Except String JVal :=
  match forwardNormalize jp rawText parsed with
  | .error m => .error m
  | .ok r => normalizeN8nResult r

/-- Keys of an object value (in order). -/
def objKeys : JVal → List String
  | .obj kvs => kvs.map (fun p => p.1)
  | _ => []

/-- The `text` field of an object value. -/
def resultText : JVal → Option JVal
  | .obj kvs => jGet kvs "text"
  | _ => none

theorem normalizeN8nResult_keys (d r : JVal) (h : normalizeN8nResult d = .ok r) :
    objKeys r = ["text", "type", "crisis_flag", "meta"] := by
  unfold normalizeN8nResult at h
  simp only [] at h
  split at h
  · split at h
    · split at h
      · cases h; rfl
      · cases h; rfl
    · cases h
  · cases h; rfl

/-- Whatever `data2` the unwrapping yields, a dict with a truthy,
tag-free string `text` surfaces that exact text. -/
theorem normalizeN8nResult_text (data0 : JVal) (kvs : List (String × JVal)) (t : String)
    (ht : (t != "") = true) (hft : findTag t.data = none)
    (htx : jGet kvs "text" = some (.str t))
    (hd2 : unwrapJsonBody (unwrapFirst data0) = .obj kvs) :
    ∃ r, normalizeN8nResult data0 = .ok r ∧ resultText r = some (.str t) := by
  have htx2 : pyOr (jGet kvs "text") (pyOr (jGet kvs "output") (jGet kvs "response")) =
      some (.str t) := by
    simp [htx, pyOr, optTruthy, jTruthy, ht]
  have hmain : normalizeN8nResult data0 =
      .ok (resultObj (some (.str t)) (jGet kvs "type") (jGet kvs "crisis_flag")
        (match jGet kvs "meta" with | some (.obj m) => JVal.obj m | _ => .obj [])) := by
    unfold normalizeN8nResult
    rw [hd2]
    cases hty : optTruthy (jGet kvs "type") with
    | true =>
      have hcond : (optTruthy (some (JVal.str t)) && !optTruthy (jGet kvs "type")) = false := by
        rw [hty]
        simp
      simp [htx2, hcond]
    | false =>
      have hcond : (optTruthy (some (JVal.str t)) && !optTruthy (jGet kvs "type")) = true := by
        rw [hty]
        simp [optTruthy, jTruthy, ht]
      simp [htx2, hcond, hft]
  exact ⟨_, hmain, by simp [resultText, resultObj, jGet, List.find?]⟩

/-! ## Transcoder: `convert_to_wav` from `src/app/utils/audio_utils.py`

The external `ffmpeg` invocation is an oracle `ff` mapping the forced
input format (`-f`, `none` for auto-detect) to `none` (non-zero exit or
missing output file) or `some out` (zero exit with an output file whose
bytes are `out`).  The result records the invocations in order. -/

/-- `m.split(";")[0]`. -/
def mimeSplit (m : String) : String :=
  String.mk (m.data.takeWhile (fun c => c ≠ ';'))

/-- `m.split(";")[0].strip().lower()` — the fast-path key. -/
def mimeKey (m : String) : String :=
  pyLower (String.mk (pyStrip (mimeSplit m).data))

/-- `m.split(";")[0].lower()` — the sniff-comparison key (no strip). -/
def mimeLow (m : String) : String :=
  pyLower (mimeSplit m)

/-- `_sniff_mime` lines 42–62: container sniffing from magic bytes. -/
def sniffMime (data : List Nat) : Option String :=
  match data with
  | b0 :: b1 :: b2 :: b3 :: _ =>
    if b0 = 0x52 && b1 = 0x49 && b2 = 0x46 && b3 = 0x46 then some "audio/wav"
    else if b0 = 0x4F && b1 = 0x67 && b2 = 0x67 && b3 = 0x53 then some "audio/ogg"
    else if (b0 = 0x49 && b1 = 0x44 && b2 = 0x33) ||
        (b0 = 0xFF && Nat.land b1 0xE0 = 0xE0) then some "audio/mpeg"
    else if b0 = 0x1A && b1 = 0x45 && b2 = 0xDF && b3 = 0xA3 then some "audio/webm"
    else none
  | _ => none

/-- Lines 82–85: prefer the sniffed mime when the declared one is falsy
or disagrees (compared on the lowered `;`-prefix). -/
def sniffedOverride (audio_bytes : List Nat) (input_mime : Option String) : Option String :=
  match sniffMime audio_bytes with
  | some s =>
    match input_mime with
    | none => some s
    | some m => if m = "" || mimeLow s ≠ mimeLow m then some s else some m
  | none => input_mime

/-- Lines 116–121: exact-key format map. -/
def fmtMap (m : String) : Option String :=
  if m = "audio/webm" then some "webm"
  else if m = "audio/ogg" then some "ogg"
  else if m = "audio/mpeg" then some "mp3"
  else if m = "audio/mp3" then some "mp3"
  else none

/-- Lines 122–128: forced-format hypotheses, mapped mime first, then the
fixed fallbacks with duplicates removed. -/
def triesFor (input_mime : Option String) : List String :=
  let base := match input_mime with
    | some m => if m = "" then [] else (match fmtMap m with | some f => [f] | none => [])
    | none => []
  base ++ (["webm", "ogg", "mp3"].filter (fun f => ¬f ∈ base))

/-- Lines 130–134: run the forced-format attempts until one succeeds;
returns the first success (if any) and the invocations made. -/
def convertAttempts (ff : Option String → Option (List Nat)) :
    List String → Option (List Nat) × List (Option String)
  | [] => (none, [])
  | f :: rest =>
    match ff (some f) with
    | some out => (some out, [some f])
    | none =>
      let r := convertAttempts ff rest
      (r.1, some f :: r.2)

/-- Is the declared type already canonical (lines 79–80)?  The Python
guard is `if input_mime and input_mime.split(";")[0].strip().lower() in
{...}`: a falsy (empty) declared type skips the fast path. -/
def declaredWav (input_mime : Option String) : Bool :=
  match input_mime with
  | some m => m ≠ "" && (mimeKey m = "audio/wav" || mimeKey m = "audio/x-wav" ||
      mimeKey m = "audio/wave")
  | none => false

/-- `convert_to_wav` lines 65–158 (error strings abbreviated; the real
messages carry exit codes and stderr text from the subprocess). -/
def convert_to_wav (ff : Option String → Option (List Nat)) (audio_bytes : List Nat)
    (input_mime : Option String) : Except String (List Nat) × List (Option String) :=
  if audio_bytes.isEmpty then (.error "Empty audio bytes", [])
  else if declaredWav input_mime then (.ok audio_bytes, [])
  else
    let mime2 := sniffedOverride audio_bytes input_mime
    let r := convertAttempts ff (triesFor mime2)
    match r.1 with
    | some out =>
      if out.isEmpty then (.error "ffmpeg produced empty output", r.2)
      else (.ok out, r.2)
    | none =>
      match ff none with
      | some out =>
        if out.isEmpty then (.error "ffmpeg produced empty output", r.2 ++ [none])
        else (.ok out, r.2 ++ [none])
      | none => (.error "ffmpeg failed", r.2 ++ [none])

/-! ## Sanitizer invariants

Lemmas tracking the last character through the tail of the
`clean_for_tts` pipeline: every stage after the line-join preserves a
final non-whitespace character. -/

theorem isTermPunct_not_space {c : Char} (h : isTermPunct c = true) :
    isPySpace c = false := by
  simp only [isTermPunct, Bool.or_eq_true, decide_eq_true_eq] at h
  rcases h with ((h | h) | h) | h <;> subst h <;> rfl

theorem getLast?_cons_of_ne_nil {α : Type} (x : α) {l : List α} (h : l ≠ []) :
    (x :: l).getLast? = l.getLast? := by
  cases l with
  | nil => exact absurd rfl h
  | cons y t => exact List.getLast?_cons_cons

theorem ne_nil_of_getLast?_eq_some {α : Type} {l : List α} {c : α}
    (h : l.getLast? = some c) : l ≠ [] := by
  intro he
  subst he
  cases h

theorem stripWsBefore_getLast (cls : Char → Bool) {c : Char}
    (hc : isPySpace c = false) :
    ∀ (s pend : List Char), s.getLast? = some c →
      (stripWsBefore cls pend s).getLast? = some c := by
  intro s
  induction s with
  | nil =>
    intro pend h
    simp at h
  | cons x rest ih =>
    intro pend h
    cases rest with
    | nil =>
      simp only [List.getLast?_singleton, Option.some.injEq] at h
      subst h
      unfold stripWsBefore
      rw [hc]
      simp only [Bool.false_eq_true, if_false]
      split
      · rfl
      · exact List.getLast?_concat pend
    | cons y t =>
      rw [List.getLast?_cons_cons] at h
      unfold stripWsBefore
      split
      · exact ih (pend ++ [x]) h
      · split
        · rw [getLast?_cons_of_ne_nil _ (ne_nil_of_getLast?_eq_some (ih [] h))]
          exact ih [] h
        · rw [List.getLast?_append_of_ne_nil pend (by simp),
            getLast?_cons_of_ne_nil _ (ne_nil_of_getLast?_eq_some (ih [] h))]
          exact ih [] h

theorem fixOpenParen_getLast {c : Char} (hc : isPySpace c = false) :
    ∀ (s : List Char) (b : Bool), s.getLast? = some c →
      (fixOpenParen b s).getLast? = some c := by
  intro s
  induction s with
  | nil =>
    intro b h
    simp at h
  | cons x rest ih =>
    intro b h
    cases rest with
    | nil =>
      simp only [List.getLast?_singleton, Option.some.injEq] at h
      subst h
      unfold fixOpenParen
      split
      · rfl
      · rw [hc]
        simp only [Bool.and_false, Bool.false_eq_true, if_false]
        rfl
    | cons y t =>
      rw [List.getLast?_cons_cons] at h
      unfold fixOpenParen
      split
      · rw [getLast?_cons_of_ne_nil _ (ne_nil_of_getLast?_eq_some (ih true h))]
        exact ih true h
      · split
        · exact ih true h
        · rw [getLast?_cons_of_ne_nil _ (ne_nil_of_getLast?_eq_some (ih false h))]
          exact ih false h

theorem collapseWS_getLast {c : Char} (hc : isPySpace c = false) :
    ∀ (s pend : List Char), s.getLast? = some c →
      (collapseWS pend s).getLast? = some c := by
  intro s
  induction s with
  | nil =>
    intro pend h
    simp at h
  | cons x rest ih =>
    intro pend h
    cases rest with
    | nil =>
      simp only [List.getLast?_singleton, Option.some.injEq] at h
      subst h
      unfold collapseWS
      rw [hc]
      simp only [Bool.false_eq_true, if_false]
      rw [List.getLast?_append_of_ne_nil _ (by simp)]
      rfl
    | cons y t =>
      rw [List.getLast?_cons_cons] at h
      unfold collapseWS
      split
      · exact ih (pend ++ [x]) h
      · rw [List.getLast?_append_of_ne_nil _ (by simp),
          getLast?_cons_of_ne_nil _ (ne_nil_of_getLast?_eq_some (ih [] h))]
        exact ih [] h

theorem dropWhile_getLast (p : Char → Bool) {c : Char} (hpc : p c = false) :
    ∀ s : List Char, s.getLast? = some c → (s.dropWhile p).getLast? = some c := by
  intro s
  induction s with
  | nil =>
    intro h
    simp at h
  | cons x rest ih =>
    intro h
    cases rest with
    | nil =>
      simp only [List.getLast?_singleton, Option.some.injEq] at h
      subst h
      simp [List.dropWhile_cons, hpc]
    | cons y t =>
      rw [List.getLast?_cons_cons] at h
      rw [List.dropWhile_cons]
      split
      · exact ih h
      · rw [List.getLast?_cons_cons]
        exact h

theorem pyStrip_getLast {c : Char} (hc : isPySpace c = false) (s : List Char)
    (h : s.getLast? = some c) : (pyStrip s).getLast? = some c := by
  have h1 : (s.dropWhile isPySpace).getLast? = some c := dropWhile_getLast _ hc s h
  have h2 : (s.dropWhile isPySpace).reverse.head? = some c := by
    rw [List.head?_reverse]
    exact h1
  obtain ⟨t, ht⟩ : ∃ t, (s.dropWhile isPySpace).reverse = c :: t := by
    cases hx : (s.dropWhile isPySpace).reverse with
    | nil => rw [hx] at h2; cases h2
    | cons a t =>
      rw [hx] at h2
      cases h2
      exact ⟨t, rfl⟩
  unfold pyStrip
  rw [ht, List.dropWhile_cons, hc]
  simp only [Bool.false_eq_true, if_false]
  rw [List.getLast?_reverse]
  rfl

theorem endPunct_getLast (ln : List Char) :
    ∃ c, (endPunct ln).getLast? = some c ∧ isTermPunct c = true := by
  unfold endPunct
  cases hl : ln.getLast? with
  | none =>
    refine ⟨'.', ?_, rfl⟩
    show (ln ++ ['.']).getLast? = some '.'
    rw [List.getLast?_concat]
  | some x =>
    by_cases hx : isTermPunct x = true
    · refine ⟨x, ?_, hx⟩
      show (if isTermPunct x = true then ln else ln ++ ['.']).getLast? = some x
      rw [if_pos hx]
      exact hl
    · refine ⟨'.', ?_, rfl⟩
      show (if isTermPunct x = true then ln else ln ++ ['.']).getLast? = some '.'
      rw [if_neg hx, List.getLast?_concat]

theorem joinSpace_getLast :
    ∀ ls : List (List Char), ls ≠ [] →
      (∀ li ∈ ls, ∃ c, li.getLast? = some c ∧ isTermPunct c = true) →
      ∃ c, (joinSpace ls).getLast? = some c ∧ isTermPunct c = true
  | [], h, _ => absurd rfl h
  | [l], _, hall => by
    simpa [joinSpace] using hall l (by simp)
  | l :: m :: ls, _, hall => by
    obtain ⟨c, hc, hterm⟩ := joinSpace_getLast (m :: ls) (by simp)
      (fun li hli => hall li (by simp [hli]))
    refine ⟨c, ?_, hterm⟩
    show (l ++ ' ' :: joinSpace (m :: ls)).getLast? = some c
    rw [List.getLast?_append_of_ne_nil l (by simp),
      getLast?_cons_of_ne_nil _ (ne_nil_of_getLast?_eq_some hc)]
    exact hc

/-! ## Adjacent-pair invariants of the sanitizer pipeline

`pairOK P l` says every two adjacent characters of `l` satisfy `P`.
The spacing normalizations of `clean_for_tts` establish and preserve
several such invariants; they drive the conditional idempotence result. -/

def pairOK (P : Char → Char → Bool) : List Char → Bool
  | a :: b :: r => P a b && pairOK P (b :: r)
  | _ => true

theorem pairOK_nil (P : Char → Char → Bool) : pairOK P [] = true := rfl

theorem pairOK_singleton (P : Char → Char → Bool) (a : Char) :
    pairOK P [a] = true := rfl

theorem pairOK_cons_cons {P : Char → Char → Bool} {a b : Char} {r : List Char} :
    pairOK P (a :: b :: r) = (P a b && pairOK P (b :: r)) := rfl

theorem pairOK_tail {P : Char → Char → Bool} {a : Char} {l : List Char}
    (h : pairOK P (a :: l) = true) : pairOK P l = true := by
  cases l with
  | nil => rfl
  | cons b r =>
    rw [pairOK_cons_cons, Bool.and_eq_true] at h
    exact h.2

theorem pairOK_pair {P : Char → Char → Bool} {a b : Char} {r : List Char}
    (h : pairOK P (a :: b :: r) = true) : P a b = true := by
  rw [pairOK_cons_cons, Bool.and_eq_true] at h
  exact h.1

theorem pairOK_cons {P : Char → Char → Bool} {a : Char} {l : List Char}
    (h1 : ∀ b, l.head? = some b → P a b = true) (h2 : pairOK P l = true) :
    pairOK P (a :: l) = true := by
  cases l with
  | nil => rfl
  | cons b r =>
    rw [pairOK_cons_cons, Bool.and_eq_true]
    exact ⟨h1 b rfl, h2⟩

theorem pairOK_append_right {P : Char → Char → Bool} :
    ∀ {l m : List Char}, pairOK P (l ++ m) = true → pairOK P m = true
  | [], m, h => h
  | a :: l, m, h => pairOK_append_right (pairOK_tail (by simpa using h))

theorem pairOK_head_pair {P : Char → Char → Bool} {a b : Char} {l : List Char}
    (h : pairOK P (a :: l) = true) (hb : l.head? = some b) : P a b = true := by
  cases l with
  | nil => cases hb
  | cons c r =>
    cases hb
    exact pairOK_pair h

theorem pairOK_append_left {P : Char → Char → Bool} :
    ∀ {l m : List Char}, pairOK P (l ++ m) = true → pairOK P l = true
  | [], _, _ => rfl
  | [a], _, _ => rfl
  | a :: b :: l, m, h => by
    rw [List.cons_append, List.cons_append, pairOK_cons_cons, Bool.and_eq_true] at h
    rw [pairOK_cons_cons, Bool.and_eq_true]
    exact ⟨h.1, pairOK_append_left (by simpa using h.2)⟩

theorem pairOK_junction {P : Char → Char → Bool} :
    ∀ {l m : List Char} {a b : Char}, pairOK P (l ++ m) = true →
      l.getLast? = some a → m.head? = some b → P a b = true
  | [], _, _, _, _, hl, _ => by cases hl
  | [x], m, a, b, h, hl, hm => by
    simp only [List.getLast?_singleton, Option.some.injEq] at hl
    subst hl
    cases m with
    | nil => cases hm
    | cons c r =>
      cases hm
      exact pairOK_pair (by simpa using h)
  | x :: y :: l, m, a, b, h, hl, hm => by
    rw [List.getLast?_cons_cons] at hl
    refine @pairOK_junction P (y :: l) m a b ?_ hl hm
    exact pairOK_tail (by simpa using h)

theorem pairOK_append_build {P : Char → Char → Bool} :
    ∀ {l m : List Char}, pairOK P l = true → pairOK P m = true →
      (∀ a b, l.getLast? = some a → m.head? = some b → P a b = true) →
      pairOK P (l ++ m) = true
  | [], m, _, hm, _ => hm
  | [x], m, _, hm, hj => pairOK_cons (fun b hb => hj x b rfl hb) hm
  | x :: y :: l, m, hl, hm, hj => by
    rw [List.cons_append, List.cons_append]
    refine pairOK_cons ?_ ?_
    · intro b hb
      simp only [List.head?_cons, Option.some.injEq] at hb
      subst hb
      exact pairOK_pair hl
    · rw [← List.cons_append]
      exact pairOK_append_build (pairOK_tail hl) hm
        (fun a b ha hb => hj a b (by rw [List.getLast?_cons_cons]; exact ha) hb)

theorem pairOK_mid {P : Char → Char → Bool} {l m : List Char}
    (h : m <:+: l) (hl : pairOK P l = true) : pairOK P m = true := by
  obtain ⟨t, u, rfl⟩ := h
  rw [List.append_assoc] at hl
  exact pairOK_append_left (pairOK_append_right hl)

/-- No whitespace directly before a `cls` character. -/
def noWsBefore (cls : Char → Bool) : List Char → Bool :=
  pairOK (fun a b => !(isPySpace a && cls b))

/-- No whitespace directly after an opening parenthesis. -/
def parenP (a b : Char) : Bool := !(a = '(' && isPySpace b)

/-- No two adjacent whitespace characters. -/
def wsP (a b : Char) : Bool := !(isPySpace a && isPySpace b)

/-- No two adjacent occurrences of the character `p`. -/
def noPP (p : Char) : List Char → Bool :=
  pairOK (fun a b => !(a = p && b = p))

/-- Decidable form of the step-4 lookaround condition: every `*` or `_`
has a word character both directly before and directly after it. -/
def emphFlanked (prev : Option Char) : List Char → Bool
  | [] => true
  | c :: rest =>
    if c = '*' || c = '_' then
      flankCond prev rest && emphFlanked (some c) rest
    else emphFlanked (some c) rest

/-! ### Identity lemmas: inputs on which each pipeline step is a no-op -/

theorem mem_of_mem_dropWhile {p : Char → Bool} {x : Char} :
    ∀ {l : List Char}, x ∈ l.dropWhile p → x ∈ l
  | [], h => h
  | a :: l, h => by
    rw [List.dropWhile_cons] at h
    split at h
    · exact List.mem_cons_of_mem a (mem_of_mem_dropWhile h)
    · exact h

theorem matchTag_some_head {s r : List Char} (h : matchTag s = some r) :
    s.head? = some '[' := by
  unfold matchTag at h
  split at h
  · rfl
  · cases h

theorem matchTag_none_of_head {c : Char} {rest : List Char} (h : c ≠ '[') :
    matchTag (c :: rest) = none := by
  cases hm : matchTag (c :: rest) with
  | none => rfl
  | some r =>
    have := matchTag_some_head hm
    simp only [List.head?_cons, Option.some.injEq] at this
    exact absurd this h

theorem removeTags_id : ∀ s : List Char, '[' ∉ s → removeTags s = s := by
  intro s
  induction s with
  | nil => intro _; simp [removeTags]
  | cons c rest ih =>
    intro h
    have hc : c ≠ '[' := fun he => h (he ▸ List.mem_cons_self c rest)
    have hmt := @matchTag_none_of_head c rest hc
    rw [removeTags, hmt]
    rw [ih (fun hm => h (List.mem_cons_of_mem c hm))]

theorem matchLink_some_head {s : List Char} {lr : List Char × List Char}
    (h : matchLink s = some lr) : s.head? = some '[' := by
  unfold matchLink at h
  split at h
  · rfl
  · cases h

theorem matchLink_none_of_head {c : Char} {rest : List Char} (h : c ≠ '[') :
    matchLink (c :: rest) = none := by
  cases hm : matchLink (c :: rest) with
  | none => rfl
  | some lr =>
    have := matchLink_some_head hm
    simp only [List.head?_cons, Option.some.injEq] at this
    exact absurd this h

theorem stripLinks_id : ∀ s : List Char, '[' ∉ s → stripLinks s = s := by
  intro s
  induction s with
  | nil => intro _; simp [stripLinks]
  | cons c rest ih =>
    intro h
    have hc : c ≠ '[' := fun he => h (he ▸ List.mem_cons_self c rest)
    have hml := @matchLink_none_of_head c rest hc
    rw [stripLinks, hml]
    rw [ih (fun hm => h (List.mem_cons_of_mem c hm))]

theorem pyReplace_id_head (p : Char) (ps rep : List Char) :
    ∀ s : List Char, p ∉ s → pyReplace p ps rep s = s := by
  intro s
  induction s with
  | nil => intro _; simp [pyReplace]
  | cons c rest ih =>
    intro h
    have hc : c ≠ p := fun he => h (he ▸ List.mem_cons_self c rest)
    have hcond : (c = p && ps.isPrefixOf rest) = false := by
      simp [hc]
    rw [pyReplace, hcond]
    simp only [Bool.false_eq_true, if_false]
    rw [ih (fun hm => h (List.mem_cons_of_mem c hm))]

theorem pyReplace_id_second (p q : Char) (rep : List Char) :
    ∀ s : List Char, q ∉ s → pyReplace p [q] rep s = s := by
  intro s
  induction s with
  | nil => intro _; simp [pyReplace]
  | cons c rest ih =>
    intro h
    have hcond : (c = p && [q].isPrefixOf rest) = false := by
      cases rest with
      | nil => simp [List.isPrefixOf]
      | cons r0 rr =>
        have hr : r0 ≠ q := by
          intro he
          exact h (List.mem_cons_of_mem c (he ▸ List.mem_cons_self r0 rr))
        simp [List.isPrefixOf, Ne.symm hr]
    rw [pyReplace, hcond]
    simp only [Bool.false_eq_true, if_false]
    rw [ih (fun hm => h (List.mem_cons_of_mem c hm))]

theorem pyReplace_id_noPP (p : Char) (rep : List Char) :
    ∀ s : List Char, noPP p s = true → pyReplace p [p] rep s = s := by
  intro s
  induction s with
  | nil => intro _; simp [pyReplace]
  | cons c rest ih =>
    intro h
    have hcond : (c = p && [p].isPrefixOf rest) = false := by
      by_cases hc : c = p
      · subst hc
        cases rest with
        | nil => simp [List.isPrefixOf]
        | cons r0 rr =>
          have hp : (!(decide (c = c) && decide (r0 = c))) = true := pairOK_pair h
          simp only [Bool.not_eq_true', Bool.and_eq_false_iff] at hp
          have hr : r0 ≠ c := by
            rcases hp with hp | hp
            · simp at hp
            · simpa using hp
          simp [List.isPrefixOf, Ne.symm hr]
      · simp [hc]
    rw [pyReplace, hcond]
    simp only [Bool.false_eq_true, if_false]
    rw [ih (pairOK_tail h)]

theorem emphFlanked_tail {c : Char} {rest : List Char} {prev : Option Char}
    (h : emphFlanked prev (c :: rest) = true) :
    emphFlanked (some c) rest = true := by
  unfold emphFlanked at h
  split at h
  · rw [Bool.and_eq_true] at h
    exact h.2
  · exact h

theorem emphFlanked_noPP_star :
    ∀ (s : List Char) (prev : Option Char), emphFlanked prev s = true →
      noPP '*' s = true := by
  intro s
  induction s with
  | nil => intro _ _; rfl
  | cons c rest ih =>
    intro prev h
    refine pairOK_cons ?_ (ih (some c) (emphFlanked_tail h))
    intro b hb
    simp only [Bool.not_eq_true', Bool.and_eq_false_iff]
    by_cases hc : c = '*'
    · right
      subst hc
      unfold emphFlanked at h
      simp only [decide_True, Bool.true_or, if_true, Bool.and_eq_true] at h
      obtain ⟨hfl, -⟩ := h
      cases rest with
      | nil => cases hb
      | cons c2 r2 =>
        simp only [List.head?_cons, Option.some.injEq] at hb
        unfold flankCond at hfl
        rw [Bool.and_eq_true] at hfl
        have hnext := hfl.2
        simp only [] at hnext
        simp only [decide_eq_false_iff_not]
        intro he
        rw [hb, he] at hnext
        exact absurd hnext (by decide)
    · left
      simp [hc]

theorem removeEmph_id :
    ∀ (s : List Char) (prev : Option Char), emphFlanked prev s = true →
      removeEmph prev s = s := by
  intro s
  induction s with
  | nil => intro _ _; rfl
  | cons c rest ih =>
    intro prev h
    have htl := emphFlanked_tail h
    rw [removeEmph]
    by_cases hc : (c = '*' || c = '_') = true
    · have hkeep : flankCond prev rest = true := by
        unfold emphFlanked at h
        rw [if_pos hc, Bool.and_eq_true] at h
        exact h.1
      rw [if_pos hc, if_pos hkeep, ih (some c) htl]
    · rw [if_neg hc, ih (some c) htl]

theorem headingStrip_id :
    ∀ s : List Char, '#' ∉ s → '\n' ∉ s → ∀ b, headingStrip b s = s := by
  intro s
  induction s with
  | nil => intro _ _ b; cases b <;> simp [headingStrip]
  | cons c rest ih =>
    intro hh hn b
    have hcn : (decide (c = '\n')) = false := by
      simp only [decide_eq_false_iff_not]
      intro he
      exact hn (he ▸ List.mem_cons_self c rest)
    have ihr := ih (fun hm => hh (List.mem_cons_of_mem c hm))
      (fun hm => hn (List.mem_cons_of_mem c hm))
    cases b with
    | false =>
      unfold headingStrip
      simp only [Bool.false_eq_true, if_false, hcn]
      rw [ihr false]
    | true =>
      unfold headingStrip
      simp only [if_true]
      cases hx : (c :: rest).dropWhile isPySpace with
      | nil =>
        simp only [hcn]
        rw [ihr false]
      | cons h1 t1 =>
        have hh1 : h1 ≠ '#' := by
          intro he
          have hm : h1 ∈ c :: rest := @mem_of_mem_dropWhile isPySpace h1 (c :: rest) (by
            rw [hx]
            exact List.mem_cons_self h1 t1)
          exact hh (he ▸ hm)
        split
        case _ r1 heq =>
          injection heq with heq1 heq2
          exact absurd heq1 hh1
        case _ =>
          simp only [hcn]
          rw [ihr false]

theorem splitNL_id : ∀ s : List Char, '\n' ∉ s → splitNL s = [s] := by
  intro s
  induction s with
  | nil => intro _; rfl
  | cons c rest ih =>
    intro h
    have hc : (c = '\n') = False := by
      simp only [eq_iff_iff, iff_false]
      intro he
      exact h (he ▸ List.mem_cons_self c rest)
    rw [splitNL]
    simp only [hc, decide_False, Bool.false_eq_true, if_false]
    rw [ih (fun hm => h (List.mem_cons_of_mem c hm))]

theorem head?_dropWhile_false {p : Char → Bool} :
    ∀ {l : List Char} {c : Char}, (l.dropWhile p).head? = some c → p c = false := by
  intro l
  induction l with
  | nil => intro c h; cases h
  | cons a t ih =>
    intro c h
    rw [List.dropWhile_cons] at h
    split at h
    · exact ih h
    · simp only [List.head?_cons, Option.some.injEq] at h
      subst h
      simpa using ‹¬p a = true›

theorem dropWhile_id_of_head {p : Char → Bool} {l : List Char}
    (h : ∀ c, l.head? = some c → p c = false) : l.dropWhile p = l := by
  cases l with
  | nil => rfl
  | cons a t =>
    rw [List.dropWhile_cons, if_neg]
    simp [h a rfl]

theorem pyStrip_id {s : List Char}
    (h1 : ∀ c, s.head? = some c → isPySpace c = false)
    (h2 : ∀ c, s.getLast? = some c → isPySpace c = false) : pyStrip s = s := by
  unfold pyStrip
  rw [dropWhile_id_of_head h1]
  rw [dropWhile_id_of_head ?_]
  · exact List.reverse_reverse s
  · intro c hc
    rw [List.head?_reverse] at hc
    exact h2 c hc

theorem pyStrip_head {s : List Char} {c : Char}
    (h : (pyStrip s).head? = some c) : isPySpace c = false := by
  unfold pyStrip at h
  rw [List.head?_reverse] at h
  -- c is the last of a `dropWhile` of the reversed list; it is also its
  -- first element seen from the right — argue via the reversed list.
  set w := (s.dropWhile isPySpace).reverse.dropWhile isPySpace with hw
  -- the last element of `w` equals the last of the list it was dropped
  -- from precisely when `w` is non-empty; but what we know directly is
  -- only `w.getLast? = some c`; recover a non-space via the source list.
  have hs : ((s.dropWhile isPySpace).reverse).getLast? = some c ∨ False := by
    left
    have hwne : w ≠ [] := ne_nil_of_getLast?_eq_some h
    -- dropWhile yields a suffix: w = drop k of the reversed list, and a
    -- non-empty suffix has the same last element.
    have : ∀ (l : List Char), l.dropWhile isPySpace ≠ [] →
        (l.dropWhile isPySpace).getLast? = l.getLast? := by
      intro l
      induction l with
      | nil => intro hne; exact absurd rfl hne
      | cons a t ih =>
        intro hne
        rw [List.dropWhile_cons]
        rw [List.dropWhile_cons] at hne
        split
        case _ hp =>
          rw [if_pos hp] at hne
          have htne : t ≠ [] := by
            intro h0
            rw [h0] at hne
            exact hne (by simp [List.dropWhile])
          rw [ih hne]
          exact (getLast?_cons_of_ne_nil a htne).symm
        case _ hp => rfl
    rw [← this _ hwne]
    exact h
  rcases hs with hs | hs
  · rw [List.getLast?_reverse] at hs
    exact head?_dropWhile_false hs
  · exact absurd hs not_false

theorem pyStrip_last {s : List Char} {c : Char}
    (h : (pyStrip s).getLast? = some c) : isPySpace c = false := by
  unfold pyStrip at h
  rw [List.getLast?_reverse] at h
  exact head?_dropWhile_false h

/-! ### Establishment, preservation and identity for the spacing passes -/

theorem getLast?_mem_ne_nil :
    ∀ l : List Char, l ≠ [] → ∃ a, l.getLast? = some a ∧ a ∈ l
  | [], h => absurd rfl h
  | [x], _ => ⟨x, rfl, List.mem_cons_self x []⟩
  | x :: y :: t, _ => by
    obtain ⟨a, ha, hm⟩ := getLast?_mem_ne_nil (y :: t) (by simp)
    exact ⟨a, by rw [List.getLast?_cons_cons]; exact ha, List.mem_cons_of_mem x hm⟩

theorem noWsBefore_of_all_space {cls : Char → Bool}
    (hsp : ∀ w, isPySpace w = true → cls w = false) :
    ∀ l : List Char, (∀ w ∈ l, isPySpace w = true) → noWsBefore cls l = true := by
  intro l
  induction l with
  | nil => intro _; rfl
  | cons a t ih =>
    intro h
    refine pairOK_cons ?_ (ih (fun w hw => h w (List.mem_cons_of_mem a hw)))
    intro b hb
    have hbm : b ∈ a :: t := by
      cases t with
      | nil => cases hb
      | cons x r =>
        cases hb
        exact List.mem_cons_of_mem a (List.mem_cons_self b r)
    rw [hsp b (h b hbm)]
    simp

theorem stripWsBefore_head_cases (cls : Char → Bool) :
    ∀ (s pend : List Char) (h : Char), (stripWsBefore cls pend s).head? = some h →
      (pend ++ s).head? = some h ∨ cls h = true := by
  intro s
  induction s with
  | nil =>
    intro pend h hh
    left
    rw [List.append_nil]
    exact hh
  | cons c rest ih =>
    intro pend h hh
    rw [stripWsBefore] at hh
    by_cases hc : isPySpace c = true
    · rw [if_pos hc] at hh
      rcases ih (pend ++ [c]) h hh with hcase | hcase
      · left
        rw [List.append_assoc] at hcase
        exact hcase
      · right
        exact hcase
    · rw [if_neg hc] at hh
      by_cases hcl : cls c = true
      · rw [if_pos hcl] at hh
        simp only [List.head?_cons, Option.some.injEq] at hh
        subst hh
        right
        exact hcl
      · rw [if_neg hcl] at hh
        left
        cases pend with
        | nil => exact hh
        | cons p0 pt =>
          simp only [List.cons_append, List.head?_cons] at hh ⊢
          exact hh

theorem stripWsBefore_establish {cls : Char → Bool}
    (hsp : ∀ w, isPySpace w = true → cls w = false) :
    ∀ (s pend : List Char), (∀ w ∈ pend, isPySpace w = true) →
      noWsBefore cls (stripWsBefore cls pend s) = true := by
  intro s
  induction s with
  | nil =>
    intro pend hpend
    exact noWsBefore_of_all_space hsp pend hpend
  | cons c rest ih =>
    intro pend hpend
    rw [stripWsBefore]
    by_cases hc : isPySpace c = true
    · rw [if_pos hc]
      refine ih (pend ++ [c]) ?_
      intro w hw
      rcases List.mem_append.mp hw with hw | hw
      · exact hpend w hw
      · simp only [List.mem_singleton] at hw
        subst hw
        exact hc
    · rw [if_neg hc]
      have hcsp : isPySpace c = false := by simpa using hc
      have hcgood : ∀ b, (stripWsBefore cls [] rest).head? = some b →
          (!(isPySpace c && cls b)) = true := by
        intro b _
        rw [hcsp]
        simp
      by_cases hcl : cls c = true
      · rw [if_pos hcl]
        exact pairOK_cons hcgood (ih [] (by intro w hw; cases hw))
      · rw [if_neg hcl]
        have hclf : cls c = false := by simpa using hcl
        refine pairOK_append_build (noWsBefore_of_all_space hsp pend hpend) ?_ ?_
        · exact pairOK_cons hcgood (ih [] (by intro w hw; cases hw))
        · intro a b ha hb
          simp only [List.head?_cons, Option.some.injEq] at hb
          subst hb
          rw [hclf]
          simp

theorem stripWsBefore_preserve {P : Char → Char → Bool} {cls2 : Char → Bool}
    (h1 : ∀ x y, cls2 y = true → P x y = true) :
    ∀ (s pend : List Char), pairOK P (pend ++ s) = true →
      pairOK P (stripWsBefore cls2 pend s) = true := by
  intro s
  induction s with
  | nil =>
    intro pend hp
    rw [List.append_nil] at hp
    exact hp
  | cons c rest ih =>
    intro pend hp
    have hrest : pairOK P rest = true :=
      pairOK_tail (pairOK_append_right hp)
    have hpair : ∀ b, rest.head? = some b → P c b = true :=
      fun b hb => pairOK_head_pair (pairOK_append_right hp) hb
    have hhead : ∀ b, (stripWsBefore cls2 [] rest).head? = some b → P c b = true := by
      intro b hb
      rcases stripWsBefore_head_cases cls2 rest [] b hb with hcase | hcase
      · exact hpair b (by simpa using hcase)
      · exact h1 c b hcase
    rw [stripWsBefore]
    by_cases hc : isPySpace c = true
    · rw [if_pos hc]
      refine ih (pend ++ [c]) ?_
      rw [List.append_assoc]
      exact hp
    · rw [if_neg hc]
      by_cases hcl : cls2 c = true
      · rw [if_pos hcl]
        exact pairOK_cons hhead (ih [] (by simpa using hrest))
      · rw [if_neg hcl]
        refine pairOK_append_build (pairOK_append_left hp) ?_ ?_
        · exact pairOK_cons hhead (ih [] (by simpa using hrest))
        · intro a b ha hb
          simp only [List.head?_cons, Option.some.injEq] at hb
          subst hb
          exact pairOK_junction hp ha rfl

theorem stripWsBefore_id {cls : Char → Bool} :
    ∀ (s pend : List Char), (∀ w ∈ pend, isPySpace w = true) →
      noWsBefore cls (pend ++ s) = true → stripWsBefore cls pend s = pend ++ s := by
  intro s
  induction s with
  | nil =>
    intro pend _ _
    rw [List.append_nil]
    rfl
  | cons c rest ih =>
    intro pend hpend hp
    have hp' : pairOK (fun a b => !(isPySpace a && cls b)) (pend ++ c :: rest) = true := hp
    have hrest : noWsBefore cls ([] ++ rest) = true :=
      pairOK_tail (pairOK_append_right hp')
    rw [stripWsBefore]
    by_cases hc : isPySpace c = true
    · rw [if_pos hc]
      have := ih (pend ++ [c]) (by
        intro w hw
        rcases List.mem_append.mp hw with hw | hw
        · exact hpend w hw
        · simp only [List.mem_singleton] at hw
          subst hw
          exact hc)
        (by rw [List.append_assoc]; exact hp)
      rw [this, List.append_assoc]
      rfl
    · rw [if_neg hc]
      by_cases hcl : cls c = true
      · rw [if_pos hcl]
        have hpe : pend = [] := by
          by_contra hne
          obtain ⟨a, ha, hm⟩ := getLast?_mem_ne_nil pend hne
          have hj := pairOK_junction hp' ha (show (c :: rest).head? = some c from rfl)
          simp only [hpend a hm, hcl, Bool.and_true, Bool.not_true] at hj
          cases hj
        subst hpe
        rw [ih [] (by intro w hw; cases hw) hrest]
        rfl
      · rw [if_neg hcl]
        rw [ih [] (by intro w hw; cases hw) hrest]
        rfl

theorem fixOpenParen_false_head :
    ∀ s : List Char, (fixOpenParen false s).head? = s.head? := by
  intro s
  cases s with
  | nil => rfl
  | cons c rest =>
    rw [fixOpenParen]
    by_cases hc : c = '('
    · rw [if_pos hc]
      subst hc
      rfl
    · rw [if_neg hc, if_neg (by simp)]
      rfl

theorem fixOpenParen_true_head_not_space :
    ∀ (s : List Char) (h : Char), (fixOpenParen true s).head? = some h →
      isPySpace h = false := by
  intro s
  induction s with
  | nil =>
    intro h hh
    cases hh
  | cons c rest ih =>
    intro h hh
    rw [fixOpenParen] at hh
    by_cases hc : c = '('
    · rw [if_pos hc] at hh
      simp only [List.head?_cons, Option.some.injEq] at hh
      subst hh
      subst hc
      rfl
    · rw [if_neg hc] at hh
      by_cases hs : isPySpace c = true
      · rw [if_pos (by rw [Bool.true_and]; exact hs)] at hh
        exact ih h hh
      · rw [if_neg (by rw [Bool.true_and]; exact hs)] at hh
        simp only [List.head?_cons, Option.some.injEq] at hh
        subst hh
        simpa using hs

theorem fixOpenParen_establish :
    ∀ (s : List Char) (b : Bool), pairOK parenP (fixOpenParen b s) = true := by
  intro s
  induction s with
  | nil => intro b; rfl
  | cons c rest ih =>
    intro b
    rw [fixOpenParen]
    by_cases hc : c = '('
    · rw [if_pos hc]
      refine pairOK_cons ?_ (ih true)
      intro d hd
      have hds := fixOpenParen_true_head_not_space rest d hd
      unfold parenP
      rw [hds]
      simp
    · by_cases hbs : (b && isPySpace c) = true
      · rw [if_neg hc, if_pos hbs]
        exact ih true
      · rw [if_neg hc, if_neg hbs]
        refine pairOK_cons ?_ (ih false)
        intro d hd
        unfold parenP
        rw [decide_eq_false hc]
        simp

theorem fixOpenParen_preserve {P : Char → Char → Bool}
    (h1 : ∀ y, P '(' y = true) :
    ∀ (s : List Char) (b : Bool), pairOK P s = true →
      pairOK P (fixOpenParen b s) = true := by
  intro s
  induction s with
  | nil => intro b _; rfl
  | cons c rest ih =>
    intro b hp
    have hrest : pairOK P rest = true := pairOK_tail hp
    rw [fixOpenParen]
    by_cases hc : c = '('
    · rw [if_pos hc]
      refine pairOK_cons ?_ (ih true hrest)
      intro d _
      subst hc
      exact h1 d
    · by_cases hbs : (b && isPySpace c) = true
      · rw [if_neg hc, if_pos hbs]
        exact ih true hrest
      · rw [if_neg hc, if_neg hbs]
        refine pairOK_cons ?_ (ih false hrest)
        intro d hd
        rw [fixOpenParen_false_head rest] at hd
        exact pairOK_head_pair hp hd

theorem fixOpenParen_id :
    ∀ s : List Char, pairOK parenP s = true →
      fixOpenParen false s = s ∧
      ((∀ h, s.head? = some h → isPySpace h = false) → fixOpenParen true s = s) := by
  intro s
  induction s with
  | nil => exact fun _ => ⟨rfl, fun _ => rfl⟩
  | cons c rest ih =>
    intro hp
    obtain ⟨ihf, iht⟩ := ih (pairOK_tail hp)
    by_cases hc : c = '('
    · subst hc
      have hresthead : ∀ h, rest.head? = some h → isPySpace h = false := by
        intro h hh
        have hpair := pairOK_head_pair hp hh
        unfold parenP at hpair
        simpa using hpair
      have htr : fixOpenParen true rest = rest := iht hresthead
      constructor
      · rw [fixOpenParen, if_pos rfl, htr]
      · intro _
        rw [fixOpenParen, if_pos rfl, htr]
    · constructor
      · rw [fixOpenParen, if_neg hc, if_neg (by simp), ihf]
      · intro hhead
        have hcs : isPySpace c = false := hhead c rfl
        rw [fixOpenParen, if_neg hc, if_neg (by rw [Bool.true_and, hcs]; simp), ihf]

theorem pairOK_flush {P : Char → Char → Bool} (pend : List Char) :
    pairOK P (if pend.length ≥ 2 then [' '] else pend) = true := by
  by_cases hl : pend.length ≥ 2
  · rw [if_pos hl]
    rfl
  · rw [if_neg hl]
    cases pend with
    | nil => rfl
    | cons a t =>
      cases t with
      | nil => rfl
      | cons b r => simp at hl

theorem collapseWS_head_cases :
    ∀ (s pend : List Char), (∀ w ∈ pend, isPySpace w = true) →
      ∀ h, (collapseWS pend s).head? = some h →
      (pend ++ s).head? = some h ∨
        (h = ' ' ∧ ∃ w, (pend ++ s).head? = some w ∧ isPySpace w = true) := by
  intro s
  induction s with
  | nil =>
    intro pend hpend h hh
    rw [collapseWS] at hh
    by_cases hl : pend.length ≥ 2
    · rw [if_pos hl] at hh
      simp only [List.head?_cons, Option.some.injEq] at hh
      cases pend with
      | nil => simp at hl
      | cons p0 pt =>
        right
        exact ⟨hh.symm, p0, rfl, hpend p0 (List.mem_cons_self p0 pt)⟩
    · rw [if_neg hl] at hh
      left
      rw [List.append_nil]
      exact hh
  | cons c rest ih =>
    intro pend hpend h hh
    rw [collapseWS] at hh
    by_cases hs : isPySpace c = true
    · rw [if_pos hs] at hh
      have hpend' : ∀ w ∈ pend ++ [c], isPySpace w = true := by
        intro w hw
        rcases List.mem_append.mp hw with hw | hw
        · exact hpend w hw
        · simp only [List.mem_singleton] at hw
          subst hw
          exact hs
      rcases ih (pend ++ [c]) hpend' h hh with hcase | ⟨hsp, w, hw, hws⟩
      · left
        rw [List.append_assoc] at hcase
        exact hcase
      · right
        rw [List.append_assoc] at hw
        exact ⟨hsp, w, hw, hws⟩
    · rw [if_neg hs] at hh
      cases pend with
      | nil =>
        simp only [List.length_nil, List.nil_append] at hh ⊢
        rw [if_neg (by simp)] at hh
        left
        simp only [List.nil_append, List.head?_cons] at hh ⊢
        exact hh
      | cons p0 pt =>
        by_cases hl : (p0 :: pt).length ≥ 2
        · rw [if_pos hl] at hh
          simp only [List.cons_append, List.head?_cons, Option.some.injEq] at hh
          right
          exact ⟨hh.symm, p0, rfl, hpend p0 (List.mem_cons_self p0 pt)⟩
        · rw [if_neg hl] at hh
          left
          simp only [List.cons_append, List.head?_cons] at hh ⊢
          exact hh

theorem collapseWS_establish :
    ∀ (s pend : List Char), pairOK wsP (collapseWS pend s) = true := by
  intro s
  induction s with
  | nil =>
    intro pend
    rw [collapseWS]
    by_cases hl : pend.length ≥ 2
    · rw [if_pos hl]
      rfl
    · rw [if_neg hl]
      cases pend with
      | nil => rfl
      | cons a t =>
        cases t with
        | nil => rfl
        | cons b r => simp at hl
  | cons c rest ih =>
    intro pend
    rw [collapseWS]
    by_cases hs : isPySpace c = true
    · rw [if_pos hs]
      exact ih (pend ++ [c])
    · rw [if_neg hs]
      have hs' : isPySpace c = false := by simpa using hs
      refine pairOK_append_build (pairOK_flush pend) ?_ ?_
      · refine pairOK_cons ?_ (ih [])
        intro d _
        unfold wsP
        rw [hs']
        rfl
      · intro a b _ hb
        simp only [List.head?_cons, Option.some.injEq] at hb
        subst hb
        unfold wsP
        rw [hs']
        simp

theorem collapseWS_preserve {P : Char → Char → Bool}
    (hL : ∀ x w w', isPySpace w = true → isPySpace w' = true →
      P x w = true → P x w' = true)
    (hR : ∀ w w' y, isPySpace w = true → isPySpace w' = true →
      P w y = true → P w' y = true) :
    ∀ (s pend : List Char), (∀ w ∈ pend, isPySpace w = true) →
      pairOK P (pend ++ s) = true → pairOK P (collapseWS pend s) = true := by
  intro s
  induction s with
  | nil =>
    intro pend _ _
    rw [collapseWS]
    exact pairOK_flush pend
  | cons c rest ih =>
    intro pend hpend hp
    rw [collapseWS]
    by_cases hs : isPySpace c = true
    · rw [if_pos hs]
      refine ih (pend ++ [c]) ?_ ?_
      · intro w hw
        rcases List.mem_append.mp hw with hw | hw
        · exact hpend w hw
        · simp only [List.mem_singleton] at hw
          subst hw
          exact hs
      · rw [List.append_assoc]
        exact hp
    · rw [if_neg hs]
      have hcr : pairOK P (c :: rest) = true := pairOK_append_right hp
      have hout : pairOK P (collapseWS [] rest) = true :=
        ih [] (by intro w hw; cases hw) (by simpa using pairOK_tail hcr)
      have hhead : ∀ d, (collapseWS [] rest).head? = some d → P c d = true := by
        intro d hd
        rcases collapseWS_head_cases rest [] (by intro w hw; cases hw) d hd
          with hcase | ⟨hsp, w, hw, hws⟩
        · exact pairOK_head_pair hcr (by simpa using hcase)
        · subst hsp
          exact hL c w ' ' hws (by decide)
            (pairOK_head_pair hcr (by simpa using hw))
      refine pairOK_append_build (pairOK_flush pend) (pairOK_cons hhead hout) ?_
      · intro a b ha hb
        simp only [List.head?_cons, Option.some.injEq] at hb
        subst hb
        by_cases hl : pend.length ≥ 2
        · rw [if_pos hl] at ha
          simp only [List.getLast?_singleton, Option.some.injEq] at ha
          subst ha
          cases hpe : pend with
          | nil => rw [hpe] at hl; simp at hl
          | cons p0 pt =>
            obtain ⟨w, hwl, hwm⟩ := getLast?_mem_ne_nil pend (by rw [hpe]; simp)
            exact hR w ' ' c (hpend w hwm) (by decide)
              (pairOK_junction hp hwl rfl)
        · rw [if_neg hl] at ha
          exact pairOK_junction hp ha rfl

theorem collapseWS_id :
    ∀ (s pend : List Char), pend.length ≤ 1 →
      (∀ w ∈ pend, isPySpace w = true) →
      pairOK wsP (pend ++ s) = true → collapseWS pend s = pend ++ s := by
  intro s
  induction s with
  | nil =>
    intro pend hlen _ _
    rw [collapseWS, if_neg (by omega), List.append_nil]
  | cons c rest ih =>
    intro pend hlen hpend hp
    rw [collapseWS]
    by_cases hs : isPySpace c = true
    · rw [if_pos hs]
      cases pend with
      | nil =>
        simp only [List.nil_append]
        rw [ih [c] (by simp) ?_ ?_]
        · rfl
        · intro w hw
          simp only [List.mem_singleton] at hw
          subst hw
          exact hs
        · exact hp
      | cons w pt =>
        cases pt with
        | cons b r => simp at hlen
        | nil =>
          exfalso
          have hpair : wsP w c = true := pairOK_pair (by simpa using hp)
          unfold wsP at hpair
          rw [hpend w (List.mem_cons_self w []), hs] at hpair
          simp at hpair
    · rw [if_neg hs, if_neg (by omega)]
      rw [ih [] (by simp) (by intro w hw; cases hw)
        (by simpa using pairOK_tail (pairOK_append_right hp))]
      rfl

/-! ### Character-class facts and membership lemmas for the pipeline -/

theorem isPySpace_cases {w : Char} (h : isPySpace w = true) :
    w = ' ' ∨ w = '\t' ∨ w = '\n' ∨ w = '\r' ∨ w = '\x0B' ∨ w = '\x0C' := by
  unfold isPySpace at h
  simp only [Bool.or_eq_true, decide_eq_true_eq] at h
  tauto

theorem space_not_closePunct {w : Char} (h : isPySpace w = true) :
    isClosePunct w = false := by
  rcases isPySpace_cases h with rfl | rfl | rfl | rfl | rfl | rfl <;> rfl

theorem space_not_rparen {w : Char} (h : isPySpace w = true) :
    decide (w = ')') = false := by
  rcases isPySpace_cases h with rfl | rfl | rfl | rfl | rfl | rfl <;> rfl

theorem space_not_lparen {w : Char} (h : isPySpace w = true) :
    decide (w = '(') = false := by
  rcases isPySpace_cases h with rfl | rfl | rfl | rfl | rfl | rfl <;> rfl

theorem pyStrip_mid (s : List Char) : pyStrip s <:+: s := by
  unfold pyStrip
  have h1 : s.dropWhile isPySpace <:+ s := List.dropWhile_suffix _
  have h2 : (s.dropWhile isPySpace).reverse.dropWhile isPySpace <:+
      (s.dropWhile isPySpace).reverse := List.dropWhile_suffix _
  have h3 : ((s.dropWhile isPySpace).reverse.dropWhile isPySpace).reverse <+:
      s.dropWhile isPySpace := by
    rw [← List.reverse_suffix]
    rw [List.reverse_reverse]
    exact h2
  exact h3.isInfix.trans h1.isInfix

theorem mem_pyStrip {x : Char} {s : List Char} (h : x ∈ pyStrip s) : x ∈ s :=
  (pyStrip_mid s).subset h

theorem mem_stripWsBefore {cls : Char → Bool} {x : Char} :
    ∀ (s pend : List Char), x ∈ stripWsBefore cls pend s → x ∈ pend ∨ x ∈ s := by
  intro s
  induction s with
  | nil =>
    intro pend h
    exact Or.inl h
  | cons c rest ih =>
    intro pend h
    rw [stripWsBefore] at h
    by_cases hc : isPySpace c = true
    · rw [if_pos hc] at h
      rcases ih (pend ++ [c]) h with h | h
      · rcases List.mem_append.mp h with h | h
        · exact Or.inl h
        · simp only [List.mem_singleton] at h
          subst h
          exact Or.inr (List.mem_cons_self x rest)
      · exact Or.inr (List.mem_cons_of_mem c h)
    · rw [if_neg hc] at h
      by_cases hcl : cls c = true
      · rw [if_pos hcl] at h
        rcases List.mem_cons.mp h with h | h
        · subst h
          exact Or.inr (List.mem_cons_self x rest)
        · rcases ih [] h with h | h
          · cases h
          · exact Or.inr (List.mem_cons_of_mem c h)
      · rw [if_neg hcl] at h
        rcases List.mem_append.mp h with h | h
        · exact Or.inl h
        · rcases List.mem_cons.mp h with h | h
          · subst h
            exact Or.inr (List.mem_cons_self x rest)
          · rcases ih [] h with h | h
            · cases h
            · exact Or.inr (List.mem_cons_of_mem c h)

theorem mem_fixOpenParen {x : Char} :
    ∀ (s : List Char) (b : Bool), x ∈ fixOpenParen b s → x ∈ s := by
  intro s
  induction s with
  | nil =>
    intro b h
    cases h
  | cons c rest ih =>
    intro b h
    rw [fixOpenParen] at h
    by_cases hc : c = '('
    · rw [if_pos hc] at h
      rcases List.mem_cons.mp h with h | h
      · subst h
        exact List.mem_cons_self x rest
      · exact List.mem_cons_of_mem c (ih true h)
    · by_cases hbs : (b && isPySpace c) = true
      · rw [if_neg hc, if_pos hbs] at h
        exact List.mem_cons_of_mem c (ih true h)
      · rw [if_neg hc, if_neg hbs] at h
        rcases List.mem_cons.mp h with h | h
        · subst h
          exact List.mem_cons_self x rest
        · exact List.mem_cons_of_mem c (ih false h)

theorem mem_collapseWS {x : Char} :
    ∀ (s pend : List Char), x ∈ collapseWS pend s → x ∈ pend ∨ x ∈ s ∨ x = ' ' := by
  intro s
  induction s with
  | nil =>
    intro pend h
    rw [collapseWS] at h
    by_cases hl : pend.length ≥ 2
    · rw [if_pos hl] at h
      simp only [List.mem_singleton] at h
      exact Or.inr (Or.inr h)
    · rw [if_neg hl] at h
      exact Or.inl h
  | cons c rest ih =>
    intro pend h
    rw [collapseWS] at h
    by_cases hs : isPySpace c = true
    · rw [if_pos hs] at h
      rcases ih (pend ++ [c]) h with h | h | h
      · rcases List.mem_append.mp h with h | h
        · exact Or.inl h
        · simp only [List.mem_singleton] at h
          subst h
          exact Or.inr (Or.inl (List.mem_cons_self x rest))
      · exact Or.inr (Or.inl (List.mem_cons_of_mem c h))
      · exact Or.inr (Or.inr h)
    · rw [if_neg hs] at h
      rcases List.mem_append.mp h with h | h
      · by_cases hl : pend.length ≥ 2
        · rw [if_pos hl] at h
          simp only [List.mem_singleton] at h
          exact Or.inr (Or.inr h)
        · rw [if_neg hl] at h
          exact Or.inl h
      · rcases List.mem_cons.mp h with h | h
        · subst h
          exact Or.inr (Or.inl (List.mem_cons_self x rest))
        · rcases ih [] h with h | h | h
          · cases h
          · exact Or.inr (Or.inl (List.mem_cons_of_mem c h))
          · exact Or.inr (Or.inr h)

theorem splitNL_no_nl :
    ∀ (s l : List Char), l ∈ splitNL s → '\n' ∉ l := by
  intro s
  induction s with
  | nil =>
    intro l hl
    rw [splitNL] at hl
    simp only [List.mem_singleton] at hl
    subst hl
    intro h
    cases h
  | cons c rest ih =>
    intro l hl
    rw [splitNL] at hl
    by_cases hc : c = '\n'
    · rw [if_pos hc] at hl
      rcases List.mem_cons.mp hl with hl | hl
      · subst hl
        intro h
        cases h
      · exact ih l hl
    · rw [if_neg hc] at hl
      cases hsp : splitNL rest with
      | nil =>
        rw [hsp] at hl
        simp only [List.mem_singleton] at hl
        subst hl
        intro h
        rcases List.mem_cons.mp h with h | h
        · exact hc h.symm
        · cases h
      | cons l0 ls =>
        rw [hsp] at hl
        rcases List.mem_cons.mp hl with hl | hl
        · subst hl
          intro h
          rcases List.mem_cons.mp h with h | h
          · exact hc h.symm
          · exact ih l0 (hsp ▸ List.mem_cons_self l0 ls) h
        · exact ih l (hsp ▸ List.mem_cons_of_mem l0 hl)

theorem mem_joinSpace {x : Char} :
    ∀ ls : List (List Char), x ∈ joinSpace ls → (∃ l ∈ ls, x ∈ l) ∨ x = ' ' := by
  intro ls
  induction ls with
  | nil =>
    intro h
    cases h
  | cons l ls ih =>
    intro h
    cases ls with
    | nil =>
      left
      exact ⟨l, List.mem_cons_self l [], h⟩
    | cons l2 ls2 =>
      rw [show joinSpace (l :: l2 :: ls2) = l ++ ' ' :: joinSpace (l2 :: ls2) from rfl] at h
      rcases List.mem_append.mp h with h | h
      · exact Or.inl ⟨l, List.mem_cons_self l (l2 :: ls2), h⟩
      · rcases List.mem_cons.mp h with h | h
        · exact Or.inr h
        · rcases ih h with ⟨l3, hl3, hx⟩ | h
          · exact Or.inl ⟨l3, List.mem_cons_of_mem l hl3, hx⟩
          · exact Or.inr h

theorem mem_endPunct {x : Char} {ln : List Char} (h : x ∈ endPunct ln) :
    x ∈ ln ∨ x = '.' := by
  unfold endPunct at h
  cases hgl : ln.getLast? with
  | none =>
    rw [hgl] at h
    have h' : x ∈ ln ++ ['.'] := h
    rcases List.mem_append.mp h' with h' | h'
    · exact Or.inl h'
    · simp only [List.mem_singleton] at h'
      exact Or.inr h'
  | some c =>
    rw [hgl] at h
    have h' : x ∈ if isTermPunct c = true then ln else ln ++ ['.'] := h
    by_cases ht : isTermPunct c = true
    · rw [if_pos ht] at h'
      exact Or.inl h'
    · rw [if_neg ht] at h'
      rcases List.mem_append.mp h' with h' | h'
      · exact Or.inl h'
      · simp only [List.mem_singleton] at h'
        exact Or.inr h'

theorem endPunct_id {ln : List Char} {c : Char} (h : ln.getLast? = some c)
    (ht : isTermPunct c = true) : endPunct ln = ln := by
  have he : endPunct ln = if isTermPunct c = true then ln else ln ++ ['.'] := by
    unfold endPunct
    rw [h]
  rw [he, if_pos ht]

theorem no_nl_cleanCore (s : List Char) : '\n' ∉ cleanCore s := by
  intro hmem
  unfold cleanCore cleanTail at hmem
  have h4 := mem_pyStrip hmem
  rcases mem_collapseWS _ _ h4 with h | h | h
  · cases h
  · rcases mem_stripWsBefore _ _ h with h | h
    · cases h
    · have h2 := mem_fixOpenParen _ _ h
      rcases mem_stripWsBefore _ _ h2 with h | h
      · cases h
      · rcases mem_joinSpace _ h with ⟨l, hl, hx⟩ | h
        · obtain ⟨l2, hl2, rfl⟩ := List.mem_map.mp hl
          rcases mem_endPunct hx with hx | hx
          · unfold cleanLines at hl2
            have hl3 := (List.mem_filter.mp hl2).1
            obtain ⟨l4, hl4, rfl⟩ := List.mem_map.mp hl3
            exact splitNL_no_nl _ l4 hl4 (mem_pyStrip hx)
          · exact absurd hx (by decide)
        · exact absurd h (by decide)
  · exact absurd h (by decide)

theorem cleanCore_ends_terminal (s : List Char) (h : cleanCore s ≠ []) :
    ∃ c, (cleanCore s).getLast? = some c ∧ isTermPunct c = true := by
  cases hls : cleanLines s with
  | nil =>
    exfalso
    apply h
    unfold cleanCore
    rw [hls]
    rfl
  | cons l0 ls =>
    obtain ⟨c, hc, hterm⟩ := joinSpace_getLast ((l0 :: ls).map endPunct) (by simp)
      (by
        intro li hli
        obtain ⟨l2, -, rfl⟩ := List.mem_map.mp hli
        exact endPunct_getLast l2)
    have hcsp := isTermPunct_not_space hterm
    refine ⟨c, ?_, hterm⟩
    unfold cleanCore
    rw [hls]
    unfold cleanTail
    exact pyStrip_getLast hcsp _ (collapseWS_getLast hcsp _ _
      (stripWsBefore_getLast _ hcsp _ _ (fixOpenParen_getLast hcsp _ _
      (stripWsBefore_getLast _ hcsp _ _ hc))))

/-! ### Structural invariants of the sanitizer output -/

theorem cleanTail_invariants (u : List Char) :
    noWsBefore isClosePunct (cleanTail u) = true ∧
    pairOK parenP (cleanTail u) = true ∧
    noWsBefore (fun c => c = ')') (cleanTail u) = true ∧
    pairOK wsP (cleanTail u) = true ∧
    (∀ c, (cleanTail u).head? = some c → isPySpace c = false) ∧
    (∀ c, (cleanTail u).getLast? = some c → isPySpace c = false) := by
  rw [show cleanTail u = pyStrip (collapseWS [] (stripWsBefore (fun c => c = ')') []
    (fixOpenParen false (stripWsBefore isClosePunct [] u)))) from rfl]
  set t1 := stripWsBefore isClosePunct [] u with ht1
  set t2 := fixOpenParen false t1 with ht2
  set t3 := stripWsBefore (fun c => c = ')') [] t2 with ht3
  set t4 := collapseWS [] t3 with ht4
  have hnilp : ∀ w : Char, w ∈ ([] : List Char) → isPySpace w = true := by
    intro w hw
    cases hw
  -- invariant 1: no whitespace before close punctuation
  have hP1t1 : noWsBefore isClosePunct t1 = true := by
    rw [ht1]
    exact stripWsBefore_establish (fun w hw => space_not_closePunct hw) u [] hnilp
  have hP1t2 : noWsBefore isClosePunct t2 = true := by
    rw [ht2]
    exact fixOpenParen_preserve (fun _ => rfl) t1 false hP1t1
  have hP1t3 : noWsBefore isClosePunct t3 = true := by
    rw [ht3]
    refine stripWsBefore_preserve ?_ t2 [] hP1t2
    intro x y hy
    have hy' := of_decide_eq_true hy
    subst hy'
    rw [show isClosePunct ')' = false from rfl, Bool.and_false]
    rfl
  have hP1t4 : noWsBefore isClosePunct t4 = true := by
    rw [ht4]
    refine collapseWS_preserve ?_ ?_ t3 [] hnilp hP1t3
    · intro x w w' _ hw' _
      rw [space_not_closePunct hw', Bool.and_false]
      rfl
    · intro w w' y hw hw' hp
      rw [hw, Bool.true_and, Bool.not_eq_true'] at hp
      rw [hp, Bool.and_false]
      rfl
  -- invariant 2: no whitespace after an opening parenthesis
  have hP2t2 : pairOK parenP t2 = true := by
    rw [ht2]
    exact fixOpenParen_establish t1 false
  have hP2t3 : pairOK parenP t3 = true := by
    rw [ht3]
    refine stripWsBefore_preserve ?_ t2 [] hP2t2
    intro x y hy
    have hy' := of_decide_eq_true hy
    subst hy'
    unfold parenP
    rw [show isPySpace ')' = false from rfl, Bool.and_false]
    rfl
  have hP2t4 : pairOK parenP t4 = true := by
    rw [ht4]
    refine collapseWS_preserve ?_ ?_ t3 [] hnilp hP2t3
    · intro x w w' hw hw' hp
      unfold parenP at hp ⊢
      rw [hw, Bool.and_true, Bool.not_eq_true'] at hp
      rw [hp, Bool.false_and]
      rfl
    · intro w w' y _ hw' _
      unfold parenP
      rw [space_not_lparen hw', Bool.false_and]
      rfl
  -- invariant 3: no whitespace before a closing parenthesis
  have hP3t3 : noWsBefore (fun c => c = ')') t3 = true := by
    rw [ht3]
    exact stripWsBefore_establish (fun w hw => space_not_rparen hw) t2 [] hnilp
  have hP3t4 : noWsBefore (fun c => c = ')') t4 = true := by
    rw [ht4]
    refine collapseWS_preserve ?_ ?_ t3 [] hnilp hP3t3
    · intro x w w' _ hw' _
      show (!(isPySpace x && decide (w' = ')'))) = true
      rw [space_not_rparen hw', Bool.and_false]
      rfl
    · intro w w' y hw hw' hp
      have hp' : (!(isPySpace w && decide (y = ')'))) = true := hp
      rw [hw, Bool.true_and, Bool.not_eq_true'] at hp'
      show (!(isPySpace w' && decide (y = ')'))) = true
      rw [hp', Bool.and_false]
      rfl
  -- invariant 4: no two adjacent whitespace characters
  have hP4t4 : pairOK wsP t4 = true := by
    rw [ht4]
    exact collapseWS_establish t3 []
  exact ⟨pairOK_mid (pyStrip_mid t4) hP1t4,
    pairOK_mid (pyStrip_mid t4) hP2t4,
    pairOK_mid (pyStrip_mid t4) hP3t4,
    pairOK_mid (pyStrip_mid t4) hP4t4,
    fun c hc => pyStrip_head hc,
    fun c hc => pyStrip_last hc⟩

theorem cleanCore_invariants (s : List Char) :
    noWsBefore isClosePunct (cleanCore s) = true ∧
    pairOK parenP (cleanCore s) = true ∧
    noWsBefore (fun c => c = ')') (cleanCore s) = true ∧
    pairOK wsP (cleanCore s) = true ∧
    (∀ c, (cleanCore s).head? = some c → isPySpace c = false) ∧
    (∀ c, (cleanCore s).getLast? = some c → isPySpace c = false) :=
  cleanTail_invariants (joinSpace ((cleanLines s).map endPunct))

/-- A character list satisfying all the invariants that `cleanCore`
guarantees of its own output — plus absence of the marker characters the
early passes react to — is a fixed point of `cleanCore`. -/
theorem cleanCore_id_of (d : List Char)
    (hdne : d ≠ [])
    (hbr : '[' ∉ d) (hbs : '\\' ∉ d) (hbt : backtickChar ∉ d) (hhash : '#' ∉ d)
    (hef : emphFlanked none d = true) (hup : noPP '_' d = true)
    (hnl : '\n' ∉ d)
    (hI1 : noWsBefore isClosePunct d = true)
    (hI2 : pairOK parenP d = true)
    (hI3 : noWsBefore (fun c => c = ')') d = true)
    (hI4 : pairOK wsP d = true)
    (hI5h : ∀ c, d.head? = some c → isPySpace c = false)
    (hI5l : ∀ c, d.getLast? = some c → isPySpace c = false)
    (hI7 : ∃ c, d.getLast? = some c ∧ isTermPunct c = true) :
    cleanCore d = d := by
  obtain ⟨c, hlast, hterm⟩ := hI7
  have e0 : removeTags d = d := removeTags_id d hbr
  have e1 : pyReplace '\\' ['n'] ['\n'] d = d := pyReplace_id_head '\\' ['n'] ['\n'] d hbs
  have e2 : pyReplace '\r' ['\n'] ['\n'] d = d := pyReplace_id_second '\r' '\n' ['\n'] d hnl
  have e3 : stripLinks d = d := stripLinks_id d hbr
  have e4 : pyReplace '*' ['*'] [] d = d :=
    pyReplace_id_noPP '*' [] d (emphFlanked_noPP_star d none hef)
  have e5 : pyReplace '_' ['_'] [] d = d := pyReplace_id_noPP '_' [] d hup
  have e6 : pyReplace backtickChar [] [] d = d := pyReplace_id_head backtickChar [] [] d hbt
  have e7 : removeEmph none d = d := removeEmph_id d none hef
  have e8 : headingStrip true d = d := headingStrip_id d hhash hnl true
  have epre : cleanPre d = d := by
    unfold cleanPre
    rw [e0, e1, e2, e3, e4, e5, e6, e7, e8]
  have hde : d.isEmpty = false := by
    cases d with
    | nil => exact absurd rfl hdne
    | cons a t => rfl
  have estrip : pyStrip d = d := pyStrip_id hI5h hI5l
  have elines : cleanLines d = [d] := by
    unfold cleanLines
    rw [epre, splitNL_id d hnl]
    rw [show [d].map pyStrip = [pyStrip d] from rfl, estrip]
    rw [List.filter_cons]
    simp [hde]
  have eend : endPunct d = d := endPunct_id hlast hterm
  have et1 : stripWsBefore isClosePunct [] d = d := by
    have h := stripWsBefore_id d [] (by intro w hw; cases hw)
      (show noWsBefore isClosePunct ([] ++ d) = true from hI1)
    rw [List.nil_append] at h
    exact h
  have et2 : fixOpenParen false d = d := (fixOpenParen_id d hI2).1
  have et3 : stripWsBefore (fun c => c = ')') [] d = d := by
    have h := stripWsBefore_id d [] (by intro w hw; cases hw)
      (show noWsBefore (fun c => c = ')') ([] ++ d) = true from hI3)
    rw [List.nil_append] at h
    exact h
  have et4 : collapseWS [] d = d := by
    have h := collapseWS_id d [] (by simp) (by intro w hw; cases hw)
      (show pairOK wsP ([] ++ d) = true from hI4)
    rw [List.nil_append] at h
    exact h
  have etail : cleanTail d = d := by
    unfold cleanTail
    rw [et1, et2, et3, et4, estrip]
  show cleanTail (joinSpace ((cleanLines d).map endPunct)) = d
  rw [elines, show [d].map endPunct = [endPunct d] from rfl, eend,
    show joinSpace [d] = d from rfl, etail]

/-! ## Claims -/

set_option maxRecDepth 40000

/-- C7: a `stop` control frame received while the utterance buffer is
empty makes the session send exactly one `error` event with detail
`empty_audio`, leave the state unchanged, and issue no transcoder,
transcription, orchestration, or synthesis call. -/
theorem stop_empty_buffer_single_error (orc : Oracles) (st : SessState)
    (h : st.buffer = []) :
    processData orc st (decodeText (.payload (.obj [("type", .str "stop")]))) =
      (noCalls, .cont st [.error "empty_audio" none]) := by
  simp [processData, decodeText, processStop, h, isStrEq, jGet]

/-- Witness for C7 at the initial session state. -/
theorem stop_empty_buffer_single_error_witness :
    initState.buffer = [] ∧
    processData okOracle initState (decodeText (.payload (.obj [("type", .str "stop")]))) =
      (noCalls, .cont initState [.error "empty_audio" none]) :=
  ⟨rfl, stop_empty_buffer_single_error okOracle initState rfl⟩

/-- C10: a text frame whose payload is not valid JSON is handled as an
unrecognized control frame: exactly one `error` event with detail
`unknown_text_frame`, the buffer and recorded session metadata are
unchanged, and the session keeps processing subsequent frames. -/
theorem invalid_json_frame_unknown_text_frame (orc : Oracles) (st : SessState)
    (rest : List InMsg) :
    processData orc st (decodeText .invalid) =
      (noCalls, .cont st [.error "unknown_text_frame" none]) ∧
    runFrom orc st (.textFrame .invalid :: rest) =
      (.error "unknown_text_frame" none :: (runFrom orc st rest).1,
       (runFrom orc st rest).2) := by
  constructor
  · simp [processData, decodeText, isStrEq, jGet]
  · simp [runFrom, processData, decodeText, isStrEq, jGet, addCalls_noCalls]

/-- C5: a successful non-crisis utterance makes the session emit, in
order, `audio_start`, the synthesis stream's chunks in stream order,
`audio_end` and `ready`, with no other event interleaved. -/
theorem success_noncrisis_event_order (orc : Oracles) (st : SessState)
    (wav : List Nat) (tr : String) (result : JVal) (t : TtsOut)
    (hb : st.buffer.isEmpty = false)
    (hconv : orc.convert st.buffer st.input_mime = .ok wav)
    (hstt : orc.stt wav st.language = .ok tr)
    (hn8n : orc.n8n ((pyOr st.session_id (some (.str "session"))).getD .null) tr = .ok result)
    (hcc : crisisCond result = false)
    (htext : optTruthy (normText result) = true)
    (hty : isStrEq (normType result) "crisis" = false)
    (htts : orc.tts (clean_for_tts (pyStr ((normText result).getD .null))) (normType result) = .ok t)
    (hse : t.streamErr = none) :
    processStop orc st =
      (⟨1, 1, 1, 1⟩, .cont { st with buffer := [] }
        (.audioStart t.mediaType ((pyOr (normType result) (some (.str "unknown"))).getD .null) ::
          t.chunks.map Event.audioChunk ++ [.audioEnd, .ready])) := by
  simp only [processStop, hb, hconv, hstt, hn8n, hcc, htext, hty, htts, hse,
    Bool.false_eq_true, if_false, Bool.not_true, Bool.false_eq_true]

/-- Witness for C5: the all-success oracles on a one-byte utterance. -/
theorem success_noncrisis_event_order_witness :
    processStop okOracle bufState =
      (⟨1, 1, 1, 1⟩, .cont { bufState with buffer := [] }
        (.audioStart "audio/mpeg" (.str "neutral") ::
          [[1, 2], [3]].map Event.audioChunk ++ [.audioEnd, .ready])) :=
  success_noncrisis_event_order okOracle bufState [7] "halo"
    (.obj [("type", .str "neutral"), ("text", .str "Hai! **Apa kabar**")])
    ⟨[[1, 2], [3]], none, "audio/mpeg"⟩ rfl rfl rfl rfl rfl rfl rfl rfl rfl

/-- C4: when the n8n result is flagged crisis (type `crisis` or truthy
`crisis_flag`) with falsy text, the session picks the hard-block message
exactly when `subtype` (top-level or under `meta`) equals
`hard_block`/`hard-block` case-insensitively or `method_intent`
(top-level or under `meta`) is truthy, else the standard message; the
type is forced to `crisis`, the client gets one `crisis` event with that
exact text followed by `ready`, and no synthesis call is made. -/
theorem crisis_fallback_selection (orc : Oracles) (st : SessState)
    (wav : List Nat) (tr : String) (result : JVal)
    (hb : st.buffer.isEmpty = false)
    (hconv : orc.convert st.buffer st.input_mime = .ok wav)
    (hstt : orc.stt wav st.language = .ok tr)
    (hn8n : orc.n8n ((pyOr st.session_id (some (.str "session"))).getD .null) tr = .ok result)
    (hcc : crisisCond result = true)
    (hsub : subtypeOf result = none ∨ ∃ s, subtypeOf result = some (.str s)) :
    processStop orc st =
      (⟨1, 1, 1, 0⟩, .cont { st with buffer := [] }
        [.crisis (.str "crisis")
          (.str (if claimHardBlock result then hardblockMsg else standardMsg))
          (crisisMeta result), .ready]) := by
  have hstd : (standardMsg != "") = true := by decide
  have hhard : (hardblockMsg != "") = true := by decide
  have he := hardCond_eq_claimHardBlock result hsub
  have hmsg : optTruthy (some (JVal.str (if claimHardBlock result then hardblockMsg else standardMsg))) = true := by
    cases hhc : claimHardBlock result <;> simp [optTruthy, jTruthy, hstd, hhard]
  simp only [processStop, hb, hconv, hstt, hn8n, hcc, he, if_true, Bool.not_true,
    Bool.false_eq_true, if_false, isStrEq]
  simp [hmsg]

/-- Witness for C4: the spec's crisis scenario (`crisis_flag` true, empty
text, subtype `hard_block`) selects the hard-block message. -/
theorem crisis_fallback_selection_witness :
    processStop crisisOracle bufState =
      (⟨1, 1, 1, 0⟩, .cont { bufState with buffer := [] }
        [.crisis (.str "crisis")
          (.str (if claimHardBlock (.obj [("type", .str "crisis"), ("text", .str ""),
            ("crisis_flag", .bool true), ("subtype", .str "hard_block")]) then hardblockMsg
           else standardMsg))
          (crisisMeta (.obj [("type", .str "crisis"), ("text", .str ""),
            ("crisis_flag", .bool true), ("subtype", .str "hard_block")])), .ready]) :=
  crisis_fallback_selection crisisOracle bufState [7] "halo"
    (.obj [("type", .str "crisis"), ("text", .str ""),
      ("crisis_flag", .bool true), ("subtype", .str "hard_block")])
    rfl rfl rfl rfl rfl (.inr ⟨"hard_block", rfl⟩)

theorem getLast?_cons_append_pair {α : Type} (a : α) (l : List α) (x y : α) :
    (a :: (l ++ [x, y])).getLast? = some y := by
  induction l generalizing a with
  | nil => rfl
  | cons b t ih =>
    rw [List.cons_append, List.getLast?_cons_cons]
    exact ih b

/-- C2 counterexample: an utterance that completes with the handled error
`empty_audio` is not followed by any `ready` event — the only `ready` in
the run is the one from the `start` frame, and the stream ends with the
error event. -/
theorem empty_audio_no_ready_after :
    runSession okOracle [startFrame, stopFrame] =
      [.ready, .error "empty_audio" none] ∧
    (runSession okOracle [startFrame, stopFrame]).countP Event.isReady = 1 :=
  ⟨rfl, rfl⟩

/-- C2 amended: whenever processing a `stop` lets the session continue,
either the utterance succeeded (normal or crisis path) and the emitted
events end with `ready`, or it ended in a handled error (`empty_audio`,
`wav_conversion_failed` or `no_text`) and the emitted events end with that
error event, with no `ready` among them. -/
theorem ready_follows_success_not_handled_error (orc : Oracles) (st : SessState)
    (c : Calls) (st2 : SessState) (evs : List Event)
    (h : processStop orc st = (c, .cont st2 evs)) :
    evs.getLast? = some .ready ∨
    (∃ d m, evs.getLast? = some (.error d m) ∧
      (d = "empty_audio" ∨ d = "wav_conversion_failed" ∨ d = "no_text") ∧
      evs.countP Event.isReady = 0) := by
  cases hbe : st.buffer.isEmpty with
  | true =>
    simp only [processStop, hbe, if_true, Prod.mk.injEq, StepRes.cont.injEq] at h
    obtain ⟨-, -, rfl⟩ := h
    exact .inr ⟨"empty_audio", none, rfl, .inl rfl, rfl⟩
  | false =>
    cases hc : orc.convert st.buffer st.input_mime with
    | error m =>
      simp only [processStop, hbe, hc, Bool.false_eq_true, if_false,
        Prod.mk.injEq, StepRes.cont.injEq] at h
      obtain ⟨-, -, rfl⟩ := h
      exact .inr ⟨"wav_conversion_failed", some (m.take 200), rfl, .inr (.inl rfl), rfl⟩
    | ok wav =>
      cases hs : orc.stt wav st.language with
      | error m => simp [processStop, hbe, hc, hs] at h
      | ok tr =>
        cases hn : orc.n8n ((pyOr st.session_id (some (.str "session"))).getD .null) tr with
        | error m => simp [processStop, hbe, hc, hs, hn] at h
        | ok result =>
          cases hcc : crisisCond result with
          | true =>
            have hstd : (standardMsg != "") = true := by decide
            have hhard : (hardblockMsg != "") = true := by decide
            have hmsg : optTruthy (some (JVal.str
                (if hardCond result then hardblockMsg else standardMsg))) = true := by
              cases hardCond result <;> simp [optTruthy, jTruthy, hstd, hhard]
            simp only [processStop, hbe, hc, hs, hn, hcc, hmsg, Bool.false_eq_true,
              if_false, if_true, Bool.not_true, isStrEq, Prod.mk.injEq,
              StepRes.cont.injEq, reduceIte] at h
            obtain ⟨-, -, rfl⟩ := h
            exact .inl rfl
          | false =>
            cases ht : optTruthy (normText result) with
            | false =>
              simp only [processStop, hbe, hc, hs, hn, hcc, ht, Bool.false_eq_true,
                if_false, Bool.not_false, if_true, Prod.mk.injEq, StepRes.cont.injEq] at h
              obtain ⟨-, -, rfl⟩ := h
              exact .inr ⟨"no_text", none, rfl, .inr (.inr rfl), rfl⟩
            | true =>
              cases hcr : isStrEq (normType result) "crisis" with
              | true =>
                simp only [processStop, hbe, hc, hs, hn, hcc, ht, hcr, Bool.false_eq_true,
                  if_false, Bool.not_true, if_true, Prod.mk.injEq, StepRes.cont.injEq] at h
                obtain ⟨-, -, rfl⟩ := h
                exact .inl rfl
              | false =>
                cases htts : orc.tts (clean_for_tts (pyStr ((normText result).getD .null)))
                    (normType result) with
                | error m =>
                  simp [processStop, hbe, hc, hs, hn, hcc, ht, hcr, htts] at h
                | ok t =>
                  cases hse : t.streamErr with
                  | some m =>
                    simp [processStop, hbe, hc, hs, hn, hcc, ht, hcr, htts, hse] at h
                  | none =>
                    simp only [processStop, hbe, hc, hs, hn, hcc, ht, hcr, htts, hse,
                      Bool.false_eq_true, if_false, Bool.not_true, Prod.mk.injEq,
                      StepRes.cont.injEq] at h
                    obtain ⟨-, -, rfl⟩ := h
                    exact .inl (getLast?_cons_append_pair _ _ _ _)

/-- Witness for C2 amended at the empty-buffer handled error. -/
theorem ready_follows_success_not_handled_error_witness :
    processStop okOracle initState = (noCalls, .cont initState [.error "empty_audio" none]) ∧
    ([Event.error "empty_audio" none].getLast? = some .ready ∨
     (∃ d m, [Event.error "empty_audio" none].getLast? = some (.error d m) ∧
       (d = "empty_audio" ∨ d = "wav_conversion_failed" ∨ d = "no_text") ∧
       [Event.error "empty_audio" none].countP Event.isReady = 0)) :=
  ⟨rfl, ready_follows_success_not_handled_error okOracle initState noCalls initState
    [Event.error "empty_audio" none] rfl⟩

/-- C1 counterexample: a missing STT configuration (the adapter raises
`HTTPException(500, "XI_API_KEY not set")`) reaches the session boundary,
is reported only as a generic error event, and the session terminates —
the following `start` frame is never serviced (one `ready` in total). -/
theorem stt_config_error_terminates_session :
    runSession sttFailOracle [startFrame, .binary [7], stopFrame, startFrame] =
      [.ready, .error "500: XI_API_KEY not set" none] ∧
    (runSession sttFailOracle [startFrame, .binary [7], stopFrame, startFrame]).countP
      Event.isReady = 1 :=
  ⟨rfl, rfl⟩

/-- C1 amended: the four handled error kinds — a transcoding failure
(`wav_conversion_failed`), a `stop` on an empty buffer (`empty_audio`),
a missing result text (`no_text`), and an unrecognized control frame
(`unknown_text_frame`) — are caught inside the loop, reported as
structured error events, and the session keeps consuming later frames;
exceptions from the transcription, orchestration, or synthesis adapters
(at the call or while streaming) propagate to the session boundary, are
reported as a generic error event carrying `str(e)`, and end the session
— later frames are dropped. -/
theorem handled_conv_error_vs_fatal_adapter_error :
    (∀ (orc : Oracles) (st : SessState) (m : String) (rest : List InMsg),
      st.buffer.isEmpty = false →
      orc.convert st.buffer st.input_mime = .error m →
      runFrom orc st (stopFrame :: rest) =
        (.error "wav_conversion_failed" (some (m.take 200)) ::
          (runFrom orc { st with buffer := [] } rest).1,
         addCalls ⟨1, 0, 0, 0⟩ (runFrom orc { st with buffer := [] } rest).2)) ∧
    (∀ (orc : Oracles) (st : SessState) (rest : List InMsg),
      st.buffer.isEmpty = true →
      runFrom orc st (stopFrame :: rest) =
        (.error "empty_audio" none :: (runFrom orc st rest).1,
         (runFrom orc st rest).2)) ∧
    (∀ (orc : Oracles) (st : SessState) (wav : List Nat) (tr : String)
        (result : JVal) (rest : List InMsg),
      st.buffer.isEmpty = false →
      orc.convert st.buffer st.input_mime = .ok wav →
      orc.stt wav st.language = .ok tr →
      orc.n8n ((pyOr st.session_id (some (.str "session"))).getD .null) tr = .ok result →
      crisisCond result = false →
      optTruthy (normText result) = false →
      runFrom orc st (stopFrame :: rest) =
        (.debug tr result :: .error "no_text" none ::
          (runFrom orc { st with buffer := [] } rest).1,
         addCalls ⟨1, 1, 1, 0⟩ (runFrom orc { st with buffer := [] } rest).2)) ∧
    (∀ (orc : Oracles) (st : SessState) (kvs : List (String × JVal)) (rest : List InMsg),
      isStrEq (jGet kvs "type") "start" = false →
      isStrEq (jGet kvs "type") "stop" = false →
      runFrom orc st (.textFrame (.payload (.obj kvs)) :: rest) =
        (.error "unknown_text_frame" none :: (runFrom orc st rest).1,
         (runFrom orc st rest).2)) ∧
    (∀ (orc : Oracles) (st : SessState) (wav : List Nat) (m : String) (rest : List InMsg),
      st.buffer.isEmpty = false →
      orc.convert st.buffer st.input_mime = .ok wav →
      orc.stt wav st.language = .error m →
      runFrom orc st (stopFrame :: rest) = ([.error m none], ⟨1, 1, 0, 0⟩)) ∧
    (∀ (orc : Oracles) (st : SessState) (wav : List Nat) (tr m : String) (rest : List InMsg),
      st.buffer.isEmpty = false →
      orc.convert st.buffer st.input_mime = .ok wav →
      orc.stt wav st.language = .ok tr →
      orc.n8n ((pyOr st.session_id (some (.str "session"))).getD .null) tr = .error m →
      runFrom orc st (stopFrame :: rest) = ([.error m none], ⟨1, 1, 1, 0⟩)) ∧
    (∀ (orc : Oracles) (st : SessState) (wav : List Nat) (tr : String)
        (result : JVal) (m : String) (rest : List InMsg),
      st.buffer.isEmpty = false →
      orc.convert st.buffer st.input_mime = .ok wav →
      orc.stt wav st.language = .ok tr →
      orc.n8n ((pyOr st.session_id (some (.str "session"))).getD .null) tr = .ok result →
      crisisCond result = false →
      optTruthy (normText result) = true →
      isStrEq (normType result) "crisis" = false →
      orc.tts (clean_for_tts (pyStr ((normText result).getD .null))) (normType result) =
        .error m →
      runFrom orc st (stopFrame :: rest) = ([.error m none], ⟨1, 1, 1, 1⟩)) ∧
    (∀ (orc : Oracles) (st : SessState) (wav : List Nat) (tr : String)
        (result : JVal) (t : TtsOut) (m : String) (rest : List InMsg),
      st.buffer.isEmpty = false →
      orc.convert st.buffer st.input_mime = .ok wav →
      orc.stt wav st.language = .ok tr →
      orc.n8n ((pyOr st.session_id (some (.str "session"))).getD .null) tr = .ok result →
      crisisCond result = false →
      optTruthy (normText result) = true →
      isStrEq (normType result) "crisis" = false →
      orc.tts (clean_for_tts (pyStr ((normText result).getD .null))) (normType result) =
        .ok t →
      t.streamErr = some m →
      runFrom orc st (stopFrame :: rest) =
        (.audioStart t.mediaType ((pyOr (normType result) (some (.str "unknown"))).getD .null)
          :: t.chunks.map Event.audioChunk ++ [.error m none], ⟨1, 1, 1, 1⟩)) := by
  refine ⟨?_, ?_, ?_, ?_, ?_, ?_, ?_, ?_⟩
  · intro orc st m rest hb hconv
    simp [runFrom, stopFrame, processData, decodeText, isStrEq, jGet, processStop, hb, hconv]
  · intro orc st rest hb
    simp [runFrom, stopFrame, processData, decodeText, isStrEq, jGet, processStop, hb,
      addCalls_noCalls]
  · intro orc st wav tr result rest hb hconv hstt hn8n hcc hnt
    simp [runFrom, stopFrame, processData, decodeText, isStrEq, jGet, processStop, hb, hconv,
      hstt, hn8n, hcc, hnt]
  · intro orc st kvs rest h1 h2
    simp [runFrom, processData, decodeText, h1, h2, addCalls_noCalls]
  · intro orc st wav m rest hb hconv hstt
    simp [runFrom, stopFrame, processData, decodeText, isStrEq, jGet, processStop, hb, hconv, hstt]
  · intro orc st wav tr m rest hb hconv hstt hn8n
    simp [runFrom, stopFrame, processData, decodeText, isStrEq, jGet, processStop, hb, hconv,
      hstt, hn8n]
  · intro orc st wav tr result m rest hb hconv hstt hn8n hcc htr hncr htts
    have hncr' : (match normType result with
      | some (JVal.str t) => decide (t = "crisis")
      | _ => false) = false := hncr
    simp [runFrom, stopFrame, processData, decodeText, isStrEq, jGet, processStop, hb, hconv,
      hstt, hn8n, hcc, htr, hncr', htts]
  · intro orc st wav tr result t m rest hb hconv hstt hn8n hcc htr hncr htts hse
    have hncr' : (match normType result with
      | some (JVal.str t) => decide (t = "crisis")
      | _ => false) = false := hncr
    simp [runFrom, stopFrame, processData, decodeText, isStrEq, jGet, processStop, hb, hconv,
      hstt, hn8n, hcc, htr, hncr', htts, hse]

/-- C3 counterexample: a raw body that is a plain JSON string is wrapped
as `{raw, parsed}` by `forward_to_n8n`, so `_normalize_n8n_result` leaves
the canonical `text` field null — the structurally valid text `halo` does
not reach the `text` field of the normalized record. -/
theorem plain_string_reply_text_lost :
    orchNormalize (fun _ => none) "\"halo\"" (some (.str "halo")) =
      .ok (.obj [("text", .null), ("type", .null), ("crisis_flag", .null), ("meta", .obj [])]) ∧
    resultText (.obj [("text", .null), ("type", .null), ("crisis_flag", .null),
      ("meta", .obj [])]) = some .null :=
  ⟨rfl, rfl⟩

/-- C3 amended: the normalization of the orchestration path always
returns a record with exactly the four canonical fields, and for the
mapping-based raw shapes (list+`json`-wrapped, `json`-wrapped,
`body`-wrapped, list-wrapped flat mapping, flat mapping, and
`values`-grouped) a truthy tag-free `text` value survives into the
record's `text` field.  (A plain-string body is the exception recorded by
the counterexample.) -/
theorem orch_normalization_shapes (jp : String → Option JVal) (raw : String)
    (kvs : List (String × JVal)) (t : String)
    (ht : (t != "") = true) (hft : findTag t.data = none)
    (htx : jGet kvs "text" = some (.str t))
    (hnj : jGet kvs "json" = none) (hnb : jGet kvs "body" = none)
    (hnv : jGet kvs "values" = none) :
    (∀ d r, normalizeN8nResult d = .ok r → objKeys r = ["text", "type", "crisis_flag", "meta"]) ∧
    (∃ r, orchNormalize jp raw (some (.arr [.obj [("json", .obj kvs)]])) = .ok r ∧
      resultText r = some (.str t)) ∧
    (∃ r, orchNormalize jp raw (some (.obj [("json", .obj kvs)])) = .ok r ∧
      resultText r = some (.str t)) ∧
    (∃ r, orchNormalize jp raw (some (.obj [("body", .obj kvs)])) = .ok r ∧
      resultText r = some (.str t)) ∧
    (∃ r, orchNormalize jp raw (some (.arr [.obj kvs])) = .ok r ∧
      resultText r = some (.str t)) ∧
    (∃ r, orchNormalize jp raw (some (.obj kvs)) = .ok r ∧
      resultText r = some (.str t)) ∧
    (∃ r, orchNormalize jp raw (some (.obj [("keepOnlySet", .bool true),
        ("values", .obj [("string", .arr [.obj [("name", .str "text"),
          ("value", .str t)]])])])) = .ok r ∧
      resultText r = some (.str t)) := by
  have hd2k : unwrapJsonBody (unwrapFirst (.obj kvs)) = .obj kvs := by
    simp [unwrapFirst, unwrapJsonBody, hnj, hnb]
  refine ⟨normalizeN8nResult_keys, ?_, ?_, ?_, ?_, ?_, ?_⟩
  · have hfwd : orchNormalize jp raw (some (.arr [.obj [("json", .obj kvs)]])) =
        normalizeN8nResult (.obj kvs) := by
      simp [orchNormalize, forwardNormalize, jGet]
    rw [hfwd]
    exact normalizeN8nResult_text _ kvs t ht hft htx hd2k
  · have hfwd : orchNormalize jp raw (some (.obj [("json", .obj kvs)])) =
        normalizeN8nResult (.obj [("json", .obj kvs)]) := by
      simp [orchNormalize, forwardNormalize, jGet]
    rw [hfwd]
    refine normalizeN8nResult_text _ kvs t ht hft htx ?_
    simp [unwrapFirst, unwrapJsonBody, jGet]
  · have hfwd : orchNormalize jp raw (some (.obj [("body", .obj kvs)])) =
        normalizeN8nResult (.obj [("body", .obj kvs)]) := by
      simp [orchNormalize, forwardNormalize, jGet]
    rw [hfwd]
    refine normalizeN8nResult_text _ kvs t ht hft htx ?_
    simp [unwrapFirst, unwrapJsonBody, jGet]
  · have hfwd : orchNormalize jp raw (some (.arr [.obj kvs])) =
        normalizeN8nResult (.obj kvs) := by
      simp [orchNormalize, forwardNormalize, hnj]
    rw [hfwd]
    exact normalizeN8nResult_text _ kvs t ht hft htx hd2k
  · have hfwd : orchNormalize jp raw (some (.obj kvs)) =
        normalizeN8nResult (.obj kvs) := by
      simp [orchNormalize, forwardNormalize, hnv]
    rw [hfwd]
    exact normalizeN8nResult_text _ kvs t ht hft htx hd2k
  · have hfwd : orchNormalize jp raw (some (.obj [("keepOnlySet", .bool true),
        ("values", .obj [("string", .arr [.obj [("name", .str "text"),
          ("value", .str t)]])])])) = normalizeN8nResult (.obj [("text", .str t)]) := by
      simp [orchNormalize, forwardNormalize, jGet, valuesFlatten, flattenEntries,
        flattenEntry, dictSet, pyStr]
    rw [hfwd]
    refine normalizeN8nResult_text _ [("text", .str t)] t ht hft ?_ ?_
    · simp [jGet]
    · simp [unwrapFirst, unwrapJsonBody, jGet]

/-- Witness for C3 amended: the flat-mapping shape at concrete inputs. -/
theorem orch_normalization_shapes_witness :
    (("halo" != "") = true) ∧ findTag "halo".data = none ∧
    jGet [("type", JVal.str "neutral"), ("text", JVal.str "halo")] "text" =
      some (.str "halo") ∧
    (∃ r, orchNormalize (fun _ => none) "x"
        (some (.obj [("type", JVal.str "neutral"), ("text", JVal.str "halo")])) = .ok r ∧
      resultText r = some (.str "halo")) :=
  ⟨rfl, rfl, rfl,
    (orch_normalization_shapes (fun _ => none) "x"
      [("type", JVal.str "neutral"), ("text", JVal.str "halo")] "halo"
      rfl rfl rfl rfl rfl rfl).2.2.2.2.2.1⟩

/-- C6 counterexample: RIFF-signature bytes declared as `audio/ogg` do
not take the fast path — the external tool is invoked (first with the
`webm` hypothesis) and its output, not the input, is returned. -/
theorem riff_declared_ogg_invokes_ffmpeg :
    convert_to_wav (fun _ => some [9]) [0x52, 0x49, 0x46, 0x46, 0, 0] (some "audio/ogg") =
      (.ok [9], [some "webm"]) ∧
    ([9] : List Nat) ≠ [0x52, 0x49, 0x46, 0x46, 0, 0] :=
  ⟨rfl, by decide⟩

/-- C6 amended: the input is returned unchanged with no external
invocation exactly on the declared-wav fast path; for RIFF bytes declared
`audio/ogg`, sniffing does override the effective type to `audio/wav`
(so no wav-specific forced format exists and the fallback hypotheses are
used), but the external tool is still invoked. -/
theorem convert_wav_fast_path_and_sniff_override :
    (∀ (ff : Option String → Option (List Nat)) (audio_bytes : List Nat) (m : String),
      audio_bytes.isEmpty = false → declaredWav (some m) = true →
      convert_to_wav ff audio_bytes (some m) = (.ok audio_bytes, [])) ∧
    (∀ (ff : Option String → Option (List Nat)) (rest : List Nat),
      sniffedOverride (0x52 :: 0x49 :: 0x46 :: 0x46 :: rest) (some "audio/ogg") =
        some "audio/wav" ∧
      ∃ l, (convert_to_wav ff (0x52 :: 0x49 :: 0x46 :: 0x46 :: rest)
        (some "audio/ogg")).2 = some "webm" :: l) := by
  constructor
  · intro ff audio_bytes m hne hdw
    simp [convert_to_wav, hne, hdw]
  · intro ff rest
    have hsniff : sniffedOverride (0x52 :: 0x49 :: 0x46 :: 0x46 :: rest) (some "audio/ogg") =
        some "audio/wav" := by
      simp [sniffedOverride, sniffMime]
      decide
    refine ⟨hsniff, ?_⟩
    have hde : declaredWav (some "audio/ogg") = false := by decide
    have htr : triesFor (some "audio/wav") = ["webm", "ogg", "mp3"] := by decide
    have hca : ∃ l0, (convertAttempts ff ["webm", "ogg", "mp3"]).2 = some "webm" :: l0 := by
      cases hww : ff (some "webm") with
      | none => exact ⟨(convertAttempts ff ["ogg", "mp3"]).2, by simp [convertAttempts, hww]⟩
      | some out => exact ⟨[], by simp [convertAttempts, hww]⟩
    obtain ⟨l0, hl0⟩ := hca
    unfold convert_to_wav
    rw [hsniff]
    simp only []
    rw [htr]
    simp only [List.isEmpty, hde, Bool.false_eq_true, if_false]
    cases hr : (convertAttempts ff ["webm", "ogg", "mp3"]).1 with
    | some out =>
      refine ⟨l0, ?_⟩
      simp only [hr, hl0]
      split <;> rfl
    | none =>
      cases hfa : ff none with
      | some out =>
        refine ⟨l0 ++ [none], ?_⟩
        simp only [hr, hfa, hl0]
        split <;> simp
      | none =>
        refine ⟨l0 ++ [none], ?_⟩
        simp [hr, hfa, hl0]

/-- Witness for C6 amended: the declared-wav fast path at `audio/wav`
with one byte, and the RIFF/ogg override with an always-succeeding tool. -/
theorem convert_wav_fast_path_and_sniff_override_witness :
    (([7] : List Nat).isEmpty = false) ∧ declaredWav (some "audio/wav") = true ∧
    convert_to_wav (fun _ => some [9]) [7] (some "audio/wav") = (.ok [7], []) ∧
    sniffedOverride (0x52 :: 0x49 :: 0x46 :: 0x46 :: [0, 0]) (some "audio/ogg") =
      some "audio/wav" :=
  ⟨rfl, by decide,
    convert_wav_fast_path_and_sniff_override.1 (fun _ => some [9]) [7] "audio/wav" rfl
      (by decide),
    (convert_wav_fast_path_and_sniff_override.2 (fun _ => some [9]) [0, 0]).1⟩

/-- C9 amended: whenever the sanitized output is non-empty, it ends in
one of the terminal marks `. ! ? …` (for any input, with or without
terminal marks of its own). -/
theorem sanitizer_nonempty_output_ends_terminal (s : String)
    (h : clean_for_tts s ≠ "") :
    ∃ c, (clean_for_tts s).data.getLast? = some c ∧ isTermPunct c = true := by
  by_cases hs : s = ""
  · subst hs
    exact absurd rfl h
  · have hcs : clean_for_tts s = String.mk (cleanCore s.data) := by
      simp [clean_for_tts, hs]
    rw [hcs] at h ⊢
    cases hls : cleanLines s.data with
    | nil =>
      exfalso
      apply h
      have hz : cleanCore s.data = [] := by
        unfold cleanCore
        rw [hls]
        rfl
      rw [hz]
    | cons l0 ls =>
      obtain ⟨c, hc, hterm⟩ := joinSpace_getLast ((l0 :: ls).map endPunct) (by simp)
        (by
          intro li hli
          obtain ⟨l2, -, rfl⟩ := List.mem_map.mp hli
          exact endPunct_getLast l2)
      have hcsp := isTermPunct_not_space hterm
      refine ⟨c, ?_, hterm⟩
      show (cleanCore s.data).getLast? = some c
      unfold cleanCore
      rw [hls]
      unfold cleanTail
      exact pyStrip_getLast hcsp _ (collapseWS_getLast hcsp _ _
        (stripWsBefore_getLast _ hcsp _ _ (fixOpenParen_getLast hcsp _ _
        (stripWsBefore_getLast _ hcsp _ _ hc))))

/-- Witness for C1 amended: the fatal STT-configuration case at concrete
inputs. -/
theorem handled_conv_error_vs_fatal_adapter_error_witness :
    bufState.buffer.isEmpty = false ∧
    runFrom sttFailOracle bufState [stopFrame, startFrame] =
      ([.error "500: XI_API_KEY not set" none], ⟨1, 1, 0, 0⟩) :=
  ⟨rfl, handled_conv_error_vs_fatal_adapter_error.2.2.2.2.1 sttFailOracle bufState [7]
    "500: XI_API_KEY not set" [startFrame] rfl rfl rfl⟩

/-- C8 (amended): `clean_for_tts` is idempotent on every input whose
first-pass output is free of the marker characters the early passes
react to — no `[`, backslash, backtick or `#`, every `*`/`_` flanked by
word characters on both sides, and no doubled `_` — so re-sanitizing
such output changes nothing.  (Unconditional idempotence fails: see the
counterexample.) -/
theorem sanitizer_conditional_idempotent (s : String)
    (hbr : '[' ∉ (clean_for_tts s).data)
    (hbs : '\\' ∉ (clean_for_tts s).data)
    (hbt : backtickChar ∉ (clean_for_tts s).data)
    (hhash : '#' ∉ (clean_for_tts s).data)
    (hef : emphFlanked none (clean_for_tts s).data = true)
    (hup : noPP '_' (clean_for_tts s).data = true) :
    clean_for_tts (clean_for_tts s) = clean_for_tts s := by
  by_cases hy0 : clean_for_tts s = ""
  · rw [hy0]
    rfl
  · by_cases hs0 : s = ""
    · exact absurd (show clean_for_tts s = "" by rw [hs0]; rfl) hy0
    · have hd : (clean_for_tts s).data = cleanCore s.data := by
        unfold clean_for_tts
        rw [if_neg hs0]
      rw [hd] at hbr hbs hbt hhash hef hup
      have hdne : cleanCore s.data ≠ [] := by
        intro h0
        apply hy0
        calc clean_for_tts s = String.mk (clean_for_tts s).data := rfl
          _ = String.mk (cleanCore s.data) := by rw [hd]
          _ = String.mk [] := by rw [h0]
          _ = "" := rfl
      obtain ⟨hI1, hI2, hI3, hI4, hI5h, hI5l⟩ := cleanCore_invariants s.data
      have hnl := no_nl_cleanCore s.data
      have hI7 := cleanCore_ends_terminal s.data hdne
      have ecore : cleanCore (cleanCore s.data) = cleanCore s.data :=
        cleanCore_id_of (cleanCore s.data) hdne hbr hbs hbt hhash hef hup hnl
          hI1 hI2 hI3 hI4 hI5h hI5l hI7
      have houter : clean_for_tts (clean_for_tts s) =
          String.mk (cleanCore (clean_for_tts s).data) := by
        rw [show clean_for_tts (clean_for_tts s) =
          if clean_for_tts s = "" then clean_for_tts s
          else String.mk (cleanCore (clean_for_tts s).data) from rfl, if_neg hy0]
      rw [houter, hd, ecore, ← hd]

/-! ### Concrete evaluations of the sanitizer (well-founded definitions
made reducible for kernel computation) -/

section SanitizerEval

unseal removeTags stripLinks pyReplace headingStrip

/-- C9 counterexample: the single-space input is non-empty and contains
no terminal mark, yet the sanitized output is the empty string, which
does not end in any of `. ! ? …`. -/
theorem whitespace_only_input_no_terminal :
    clean_for_tts " " = "" ∧ (" " : String) ≠ "" ∧
    (" ".data.all (fun c => !isTermPunct c)) = true :=
  ⟨rfl, by decide, rfl⟩

/-- Witness for C9 amended at a small concrete input (`"hi"` sanitizes
to `"hi."`). -/
theorem sanitizer_nonempty_output_ends_terminal_witness :
    clean_for_tts "hi" ≠ "" ∧
    (∃ c, (clean_for_tts "hi").data.getLast? = some c ∧
      isTermPunct c = true) :=
  ⟨by decide, sanitizer_nonempty_output_ends_terminal "hi" (by decide)⟩

/-- C8 counterexample: sanitizing `"a_\x60_b"` yields `"a__b."` (the
backtick removal creates a doubled underscore the emphasis passes keep),
and sanitizing that again yields `"ab."` — so `clean_for_tts` is not
idempotent. -/
theorem sanitizer_not_idempotent :
    clean_for_tts (clean_for_tts "a_`_b") ≠ clean_for_tts "a_`_b" ∧
    clean_for_tts "a_`_b" = "a__b." ∧
    clean_for_tts (clean_for_tts "a_`_b") = "ab." := by
  refine ⟨?_, rfl, rfl⟩
  decide

/-- Witness for C8 amended: the sanitized form of `"hi"` (namely
`"hi."`) satisfies every marker-freedom hypothesis, and the theorem
yields idempotence there. -/
theorem sanitizer_conditional_idempotent_witness :
    ('[' ∉ (clean_for_tts "hi").data ∧
     '\\' ∉ (clean_for_tts "hi").data ∧
     backtickChar ∉ (clean_for_tts "hi").data ∧
     '#' ∉ (clean_for_tts "hi").data ∧
     emphFlanked none (clean_for_tts "hi").data = true ∧
     noPP '_' (clean_for_tts "hi").data = true) ∧
    clean_for_tts (clean_for_tts "hi") = clean_for_tts "hi" :=
  ⟨⟨by decide, by decide, by decide, by decide, by decide, by decide⟩,
    sanitizer_conditional_idempotent "hi" (by decide) (by decide) (by decide)
      (by decide) (by decide) (by decide)⟩

end SanitizerEval

end SpeechBridge
